import Mathlib

/-!
Verification development for the ExamDataManager fee reconciliation core.

The definitions below are a shallow embedding of the Python sources:
* `app/utils/openai_client.py` (`get_fees_batch`),
* `app/services/fee_service.py` (`_full_fee`, `supplement_fee_info`),
* `app/utils/excel.py` (`_write_excel_in_thread`, highlight application).

Python floats are modelled as an inductive value type (`FeeVal`): a finite
float is a rational, `nan` is a separate constructor, and `None`/strings are
kept as their own cases so that the dynamic-typing behaviour of the source
(`str(...)`, `math.isnan(...)` raising `TypeError`) is preserved.  Fallible
Python code is modelled with `Except`, where `.error ()` stands for an
uncaught Python exception.
-/

namespace ExamData

/-- A value that can sit in the `金额` (amount) field of a record:
Python `None` / absent key, a finite number, the float `nan`, or a string. -/
inductive FeeVal where
  | vnone : FeeVal
  | vnum : ℚ → FeeVal
  | vnan : FeeVal
  | vstr : String → FeeVal
deriving DecidableEq, Repr

/-- A value that can appear in the resolver's amount lists: a finite
number, the float `nan` failure marker, Python `None` (the placeholder
planted by the partition loop, and equally a `None` entry stored verbatim
from a decoded oracle response), or a non-numeric decoded value such as a
string (rendered opaquely).  The decode step of `get_fees_batch` checks
only that the response is a list of the right length — never the entries —
so all four shapes can reach the returned list. -/
inductive AmountResult where
  | val : ℚ → AmountResult
  | nan : AmountResult
  | pynone : AmountResult
  | other : String → AmountResult
deriving DecidableEq, Repr

/-- Entries that are actual numbers (a finite float or the float `nan`), as
opposed to `None` or non-numeric decoded values. -/
def isNumericEntry : AmountResult → Bool
  | .val _ => true
  | .nan => true
  | .pynone => false
  | .other _ => false

/-- A personnel-directory document as consumed by `supplement_fee_info`
(the fields read by `_full_fee` via `user_info.get(...)`). -/
structure UserInfo where
  name : Option String
  id_card : Option String
  bank_card : Option String
  phone : Option String
  bank_name : Option String
deriving DecidableEq, Repr

/-- A fee record (one row of the spreadsheet), restricted to the fields the
core reads or writes: `姓名`, `金额`, `次数（小时）`, `标准` and the four
contact/banking fields merged in by `_full_fee`.  `none` models an absent
key (or Python `None`). -/
structure Fee where
  name : Option String
  amount : FeeVal
  countHour : Option String
  standard : Option String
  idCard : Option String
  bankCard : Option String
  phoneNum : Option String
  bankName : Option String
deriving DecidableEq, Repr

/-- A calculation request key: the pair `(str(data["次数（小时）"]), str(data["标准"]))`. -/
abbrev CalKey := String × String

instance {ε α : Type} [DecidableEq ε] [DecidableEq α] :
    DecidableEq (Except ε α) := fun x y =>
  match x, y with
  | .ok a, .ok b =>
    if h : a = b then .isTrue (by rw [h])
    else .isFalse (by intro hc; cases hc; exact h rfl)
  | .error a, .error b =>
    if h : a = b then .isTrue (by rw [h])
    else .isFalse (by intro hc; cases hc; exact h rfl)
  | .ok _, .error _ => .isFalse (by intro hc; cases hc)
  | .error _, .ok _ => .isFalse (by intro hc; cases hc)

/-! ## Embedding of `get_fees_batch` (app/utils/openai_client.py) -/

/-- Python `str.replace(" ", "")`: remove every space character (the
pattern is the single-character string `" "` and the replacement is empty,
so the call deletes every space). -/
def stripSpaces (s : String) : String :=
  ⟨s.data.filter (fun c => c ≠ ' ')⟩

/-- The test `str(fee).replace(" ", "") != ""` of the partition loop:
`str` of `None` and of any float is a nonempty, space-free piece of text
("None", "nan", a numeral), so the test is `true` for those values and only
inspects the characters of actual string values. -/
def strTestAmount : FeeVal → Bool
  | .vnone => true
  | .vnum _ => true
  | .vnan => true
  | .vstr s => !(stripSpaces s == "")

/-- Python `math.isnan(fee)`: defined on numbers, raises `TypeError`
(modelled by `.error ()`) on `None` and on strings. -/
def mathIsnan : FeeVal → Except Unit Bool
  | .vnone => .error ()
  | .vnum _ => .ok false
  | .vnan => .ok true
  | .vstr _ => .error ()

/-- Outcome of the partition step of `get_fees_batch` for one record
(lines 38-53): keep an existing finite amount, fail immediately because the
`次数（小时）`/`标准` fields are missing, or queue a calculation request. -/
inductive StepRes where
  | keep : ℚ → StepRes
  | failNow : StepRes
  | compute : CalKey → StepRes
deriving DecidableEq, Repr

/-- The `else` branch of the partition loop: require both `次数（小时）` and
`标准`, otherwise record an immediate `nan` failure. -/
def needsCompute (data : Fee) : StepRes :=
  match data.countHour, data.standard with
  | some h, some s => .compute (h, s)
  | _, _ => .failNow

/-- One iteration of the partition loop of `get_fees_batch`:
`fee = data.get('金额')`; `if str(fee).replace(" ", "") != "" and not
math.isnan(fee)` keep the amount, else queue/fail.  `math.isnan` is only
reached when the string test passes, and raises on `None`/strings. -/
def classifyRecord (data : Fee) : Except Unit StepRes :=
  if strTestAmount data.amount then
    match mathIsnan data.amount with
    | .error e => .error e
    | .ok true => .ok (needsCompute data)
    | .ok false =>
      match data.amount with
      | .vnum q => .ok (.keep q)
      | _ => .error ()
  else
    .ok (needsCompute data)

/-- The three lists built by the partition loop: `original_fees` (with
`pynone` as the Python `None` placeholder), `to_calculate` (the request
keys, in order) and `positions` (the indices of the records needing
computation). -/
structure PartitionState where
  originalFees : List AmountResult
  toCalculate : List CalKey
  positions : List ℕ
deriving DecidableEq, Repr

/-- The partition loop of `get_fees_batch` (`for i, data in
enumerate(data_list)`), threading the loop counter `i`. -/
def partitionGo : List Fee → ℕ → PartitionState → Except Unit PartitionState
  | [], _, st => .ok st
  | d :: rest, i, st =>
    match classifyRecord d with
    | .error e => .error e
    | .ok (.keep q) =>
      partitionGo rest (i + 1)
        ⟨st.originalFees ++ [.val q], st.toCalculate, st.positions⟩
    | .ok .failNow =>
      partitionGo rest (i + 1)
        ⟨st.originalFees ++ [.nan], st.toCalculate, st.positions⟩
    | .ok (.compute k) =>
      partitionGo rest (i + 1)
        ⟨st.originalFees ++ [.pynone], st.toCalculate ++ [k], st.positions ++ [i]⟩

/-- The whole partition phase of `get_fees_batch` (lines 31-53). -/
def partitionRecords (dataList : List Fee) : Except Unit PartitionState :=
  partitionGo dataList 0 ⟨[], [], []⟩

/-- The dedup loop of `get_fees_batch` (lines 59-65): `key_to_original` is
modelled by its key-membership predicate `seen`. -/
def dedupKeysGo (seen : CalKey → Bool) : List CalKey → List CalKey
  | [] => []
  | k :: rest =>
    if seen k then dedupKeysGo seen rest
    else k :: dedupKeysGo (fun x => x == k || seen x) rest

/-- `unique_calculations`: the request list deduplicated by exact key
equality, keeping first occurrences. -/
def dedupKeys (l : List CalKey) : List CalKey := dedupKeysGo (fun _ => false) l

/-- The batching loop `for i in range(0, len(unique_calculations), 30)`,
written with an explicit fuel argument (the list length bounds the number of
slices) so that the definition is structural. -/
def chunksGo : ℕ → List CalKey → List (List CalKey)
  | 0, _ => []
  | _, [] => []
  | fuel + 1, l => l.take 30 :: chunksGo fuel (l.drop 30)

/-- The batches of at most 30 unique requests sent to the oracle. -/
def chunks30 (l : List CalKey) : List (List CalKey) := chunksGo l.length l

/-- What the resolver observes of one oracle call: the API call raised, the
response did not decode to a list (`eval` failure or a non-list value), or
a list was decoded (possibly of the wrong length).  The code checks only
`isinstance(batch_results, list)` and the length — never the entries — so
the decoded list's entries are arbitrary Python values: finite numbers,
`nan`, `None`, strings… (the constructors of `AmountResult`). -/
inductive OracleResp where
  | raised : OracleResp
  | badDecode : OracleResp
  | ok : List AmountResult → OracleResp

/-- Per-batch handling of `get_fees_batch` (lines 78-108): on an API
exception, a decode failure or a length mismatch every key of the batch is
cached as `nan`; otherwise the batch is zipped with the decoded results. -/
def batchResults (oracle : List CalKey → OracleResp) (batch : List CalKey) :
    List (CalKey × AmountResult) :=
  match oracle batch with
  | .raised => batch.map (fun k => (k, .nan))
  | .badDecode => batch.map (fun k => (k, .nan))
  | .ok vs =>
    if vs.length ≠ batch.length then batch.map (fun k => (k, .nan))
    else batch.zip vs

/-- Lookup in the `unique_results` cache (dict lookup; keys are unique
across batches so first-match lookup agrees with the Python dict). -/
def cacheGet (cache : List (CalKey × AmountResult)) (k : CalKey) :
    Option AmountResult :=
  match cache with
  | [] => none
  | (k', v) :: rest => if k' = k then some v else cacheGet rest k

/-- The final projection of `get_fees_batch` (lines 110-115):
`for pos, (cal_key, _) in zip(positions, to_calculate):
 result[pos] = unique_results.get(cal_key, math.nan)`. -/
def projectCache (cache : List (CalKey × AmountResult))
    (pairs : List (ℕ × CalKey)) (res : List AmountResult) :
    List AmountResult :=
  pairs.foldl (fun r pk => r.set pk.1 ((cacheGet cache pk.2).getD .nan)) res

/-- `get_fees_batch(data_list)`: partition, early return when nothing needs
computation, dedup, batch the unique requests to the oracle, and project the
cached results back onto the placeholder positions.  `.error ()` models the
uncaught `TypeError` the partition loop can raise. -/
def get_fees_batch (oracle : List CalKey → OracleResp) (dataList : List Fee) :
    Except Unit (List AmountResult) :=
  match partitionRecords dataList with
  | .error e => .error e
  | .ok st =>
    if st.toCalculate.isEmpty then .ok st.originalFees
    else
      let cache := ((chunks30 (dedupKeys st.toCalculate)).map (batchResults oracle)).flatten
      .ok (projectCache cache (st.positions.zip st.toCalculate) st.originalFees)

/-- The request batches `get_fees_batch` submits to the oracle (empty when
the partition raises or nothing needs computation). -/
def oracleBatches (dataList : List Fee) : List (List CalKey) :=
  match partitionRecords dataList with
  | .error _ => []
  | .ok st => if st.toCalculate.isEmpty then [] else chunks30 (dedupKeys st.toCalculate)

/-- The `(position, request key)` pairs produced by the partition loop:
index and key of every record classified as needing computation. -/
def computeKeyed : List Fee → ℕ → List (ℕ × CalKey)
  | [], _ => []
  | d :: rest, i =>
    match classifyRecord d with
    | .ok (.compute k) => (i, k) :: computeKeyed rest (i + 1)
    | _ => computeKeyed rest (i + 1)

/-- The `original_fees` entry contributed by one record (`pynone` is the
`None` placeholder of a record that queues a calculation request). -/
def feeEntry (d : Fee) : AmountResult :=
  match classifyRecord d with
  | .ok (.keep q) => .val q
  | .ok .failNow => .nan
  | _ => .pynone

/-- Modelled from the spec: "deduplicate by exact (hours-spec, rate-spec)
equality, preserving first-seen order of unique requests" — keep each
request the first time it is seen, drop every later equal request. -/
def firstSeenDedup : List CalKey → List CalKey
  | [] => []
  | k :: rest => k :: (firstSeenDedup rest).filter (fun x => x ≠ k)

/-! ## Embedding of `_full_fee` and `supplement_fee_info`
(app/services/fee_service.py) -/

/-- `_full_fee(fee_info, user_info)`: copy the record, overwrite the four
contact/banking fields with the profile's, and set `姓名` to the profile's
name when it is truthy (a nonempty string), else keep the record's own. -/
def full_fee (fee : Fee) (user : UserInfo) : Fee :=
  { fee with
    idCard := user.id_card
    bankCard := user.bank_card
    phoneNum := user.phone
    bankName := user.bank_name
    name :=
      match user.name with
      | some s => if s = "" then fee.name else some s
      | none => fee.name }

/-- The empty dict passed to `_full_fee` for an unmatched record. -/
def emptyUser : UserInfo := ⟨none, none, none, none, none⟩

/-- Python truthiness test of the validation loop: `'姓名' in fee and
fee['姓名']` (a present, nonempty name). -/
def validName (f : Fee) : Bool :=
  match f.name with
  | none => false
  | some s => !(s == "")

/-- The validation loop of `supplement_fee_info` (lines 65-71): returns
`valid_fee_info` and `invalid_count`. -/
def validateFees : List Fee → List Fee × ℕ
  | [] => ([], 0)
  | f :: rest =>
    let vc := validateFees rest
    if validName f then (f :: vc.1, vc.2) else (vc.1, vc.2 + 1)

/-- `users_dict.get(k, [])` where `users_dict` groups the documents returned
by `collection.find({"name": {"$in": names}})` by their exact `name` field:
the profiles whose name is exactly `k`, provided `k` was one of the queried
(raw, unstripped) names. -/
def usersDictGet (coll : List UserInfo) (names : List String) (k : String) :
    List UserInfo :=
  if k ∈ names then coll.filter (fun u => u.name == some k) else []

/-- The mutable state of the main loop of `supplement_fee_info`:
`fee_result`, `repeat_list`, `no_match_list`, `index` (initialised to 1 and
incremented before each recording), `temp_fees` and `indices_map`. -/
structure SupplementState where
  feeResult : List Fee
  repeatList : List (List ℕ)
  noMatchList : List ℕ
  idx : ℕ
  tempFees : List Fee
  indicesMap : List ℕ
deriving DecidableEq, Repr

/-- The initial loop state (`fee_result = []`, …, `index = 1`). -/
def initState : SupplementState := ⟨[], [], [], 1, [], []⟩

/-- The common append sequence of the loop body:
`temp_fees.append(fee_copy); index += 1; indices_map.append(len(fee_result));
fee_result.append(fee_copy)`. -/
def appendFee (st : SupplementState) (fc : Fee) : SupplementState :=
  { st with
    tempFees := st.tempFees ++ [fc]
    idx := st.idx + 1
    indicesMap := st.indicesMap ++ [st.feeResult.length]
    feeResult := st.feeResult ++ [fc] }

/-- The inner `for user in users` loop of the duplicate branch, also
accumulating `repeat_index` (each recorded value is the just-incremented
`index`). -/
def handleUsers (fee : Fee) : List UserInfo → SupplementState × List ℕ →
    SupplementState × List ℕ
  | [], sr => sr
  | u :: us, (st, ri) =>
    handleUsers fee us (appendFee st (full_fee fee u), ri ++ [st.idx + 1])

/-- One iteration of the main loop of `supplement_fee_info` (lines 97-131):
strip the name, look it up, and dispatch on the number of matching profiles
(`> 1` duplicate, `== 1` matched, `0` unmatched, which records the new
`index` in `no_match_list`). -/
def supplementStep (usersGet : String → List UserInfo) (st : SupplementState)
    (fee : Fee) : SupplementState :=
  match usersGet (stripSpaces (fee.name.getD "")) with
  | [] =>
    let st2 := appendFee st (full_fee fee emptyUser)
    { st2 with noMatchList := st2.noMatchList ++ [st2.idx] }
  | [u] => appendFee st (full_fee fee u)
  | u :: v :: us =>
    let sr := handleUsers fee (u :: v :: us) (st, [])
    { sr.1 with repeatList := sr.1.repeatList ++ [sr.2] }

/-- The main loop of `supplement_fee_info` over the valid records. -/
def supplementLoop (usersGet : String → List UserInfo) :
    List Fee → SupplementState → SupplementState
  | [], st => st
  | fee :: rest, st => supplementLoop usersGet rest (supplementStep usersGet st fee)

/-- The state after the matching phase of a `supplement_fee_info` run over
the already-validated records. -/
def matchedState (coll : List UserInfo) (validFeeInfo : List Fee) :
    SupplementState :=
  supplementLoop (usersDictGet coll (validFeeInfo.map (fun f => f.name.getD "")))
    validFeeInfo initState

/-- The amount write-back loop of `supplement_fee_info` (lines 142-146),
entry by entry in order: a `None` entry fails `fee is not None` and is
skipped, a `nan` entry fails `not math.isnan(fee)` and is skipped, a finite
number is assigned to `fee_result[indices_map[i]]['金额']`, and a
non-numeric entry makes `math.isnan` raise `TypeError`, aborting the
remaining iterations (the exception is caught by the surrounding `try`, so
the updates already made are kept). -/
def applyAmountsGo : List (ℕ × AmountResult) → List Fee → List Fee
  | [], acc => acc
  | (p, c) :: rest, acc =>
    match c with
    | .val q =>
      applyAmountsGo rest (acc.modify (fun f => { f with amount := .vnum q }) p)
    | .nan => applyAmountsGo rest acc
    | .pynone => applyAmountsGo rest acc
    | .other _ => acc

/-- The amount write-back of `supplement_fee_info`: iterate the calculated
entries in order, paired with `indices_map`. -/
def applyAmounts (feeResult : List Fee) (indicesMap : List ℕ)
    (calculated : List AmountResult) : List Fee :=
  applyAmountsGo (indicesMap.zip calculated) feeResult

/-- Invariant of the main loop of `supplement_fee_info`: `temp_fees` mirrors
`fee_result`, `indices_map` is the identity mapping, `index` runs two ahead
of the last zero-based output position, and the recorded duplicate/unmatched
marks are distinct values in `[2, index]`. -/
def StateInv (st : SupplementState) : Prop :=
  st.tempFees = st.feeResult ∧
  st.indicesMap = List.range st.feeResult.length ∧
  st.idx = st.feeResult.length + 1 ∧
  (∀ p ∈ st.repeatList.flatten ++ st.noMatchList, 2 ≤ p ∧ p ≤ st.idx) ∧
  (st.repeatList.flatten ++ st.noMatchList).Nodup

/-- Outcome of `supplement_fee_info`: the returned triple, or the
`BadRequestException` raised when every record lacks a name. -/
inductive SupplementResult where
  | ok : List Fee → List (List ℕ) → List ℕ → SupplementResult
  | badRequest : SupplementResult
deriving DecidableEq, Repr

/-- `supplement_fee_info(collection, fee_info)`: empty-input early return,
`collection is None` early return, name validation (raising on zero valid
records), batched directory lookup (the `$in` query uses the raw names),
the matching loop, and the guarded batch amount computation (whose
exceptions are swallowed, returning the unsupplemented amounts). -/
def supplement_fee_info (oracle : List CalKey → OracleResp)
    (collection : Option (List UserInfo)) (feeInfo : List Fee) :
    SupplementResult :=
  if feeInfo.isEmpty then .ok [] [] []
  else
    match collection with
    | none => .ok feeInfo [] []
    | some coll =>
      let validFeeInfo := (validateFees feeInfo).1
      if validFeeInfo.isEmpty then .badRequest
      else
        let st := matchedState coll validFeeInfo
        if st.tempFees.isEmpty then .ok [] [] []
        else
          match get_fees_batch oracle st.tempFees with
          | .error _ => .ok st.feeResult st.repeatList st.noMatchList
          | .ok calculated =>
            .ok (applyAmounts st.feeResult st.indicesMap calculated)
              st.repeatList st.noMatchList

/-! ## Embedding of the highlight application of `_write_excel_in_thread`
(app/utils/excel.py, lines 189-216) -/

/-- The fill finally carried by a worksheet row: untouched, the duplicate
(red) highlight, or the unmatched (yellow) highlight. -/
inductive Fill where
  | default : Fill
  | red : Fill
  | yellow : Fill
deriving DecidableEq, Repr

/-- The first highlight pass: for every index of every duplicate group, fill
row `idx + 2` red. -/
def applyRepeatFills (fills : ℕ → Fill) (repeatList : List (List ℕ)) : ℕ → Fill :=
  repeatList.foldl
    (fun f ri => ri.foldl (fun g i => Function.update g (i + 2) Fill.red) f)
    fills

/-- The second highlight pass: for every unmatched index, fill row `idx + 2`
yellow (overwriting any fill written by the first pass). -/
def applyNoMatchFills (fills : ℕ → Fill) (noMatchList : List ℕ) : ℕ → Fill :=
  noMatchList.foldl (fun g i => Function.update g (i + 2) Fill.yellow) fills

/-- The row-fill function produced by `_write_excel_in_thread`: red pass
first, yellow pass second. -/
def writeFills (repeatList : List (List ℕ)) (noMatchList : List ℕ) : ℕ → Fill :=
  applyNoMatchFills (applyRepeatFills (fun _ => .default) repeatList) noMatchList

/-- The batch-level failure condition of `get_fees_batch` (lines 87-97,
104-108): the oracle call raised, the response failed to decode as a list,
or the decoded list has the wrong length. -/
def oracleBad (resp : OracleResp) (batch : List CalKey) : Prop :=
  match resp with
  | .raised => True
  | .badDecode => True
  | .ok vs => vs.length ≠ batch.length

/-! ## Concrete inputs referenced by witnesses and counterexamples -/

/-- An oracle double whose API call always raises. -/
def oracleRaise : List CalKey → OracleResp := fun _ => .raised

/-- An oracle double that answers `[1600]` to every batch. -/
def oracle1600 : List CalKey → OracleResp := fun _ => .ok [.val 1600]

/-- A record with a `nan` amount and both calculation fields present. -/
def recNanA : Fee := ⟨some "A", .vnan, some "8h", some "std", none, none, none, none⟩

/-- A record whose `金额` key is absent (`data.get('金额')` is `None`). -/
def recNoAmount : Fee :=
  ⟨some "A", .vnone, some "8h", some "std", none, none, none, none⟩

/-- A record carrying a valid finite amount. -/
def recValid5 : Fee := ⟨some "B", .vnum 5, none, none, none, none, none, none⟩

/-- A valid-named record with a `nan` amount and no calculation fields. -/
def feeA : Fee := ⟨some "A", .vnan, none, none, none, none, none, none⟩

/-- A record whose name contains an internal space. -/
def feeSpaced : Fee := ⟨some "Zh S", .vnan, none, none, none, none, none, none⟩

/-- A record named with the space-stripped form of `feeSpaced`'s name. -/
def feeStripped : Fee := ⟨some "ZhS", .vnan, none, none, none, none, none, none⟩

/-- A record with no name (dropped by the validation loop). -/
def feeNoName : Fee := ⟨none, .vnan, none, none, none, none, none, none⟩

/-- A directory profile named "ZhS". -/
def userZhS : UserInfo := ⟨some "ZhS", some "id1", some "bc1", some "ph1", some "bk1"⟩

/-- A directory profile without a name field. -/
def userNoName : UserInfo := ⟨none, some "id2", none, none, none⟩

/-- An oracle double answering the decoded list `[None]` to every batch: a
right-length response whose single entry is not a number. -/
def oracleNoneResp : List CalKey → OracleResp := fun _ => .ok [.pynone]

/-- First of two homonymous directory profiles named "A". -/
def userB1 : UserInfo := ⟨some "A", some "i1", none, none, none⟩

/-- Second of two homonymous directory profiles named "A". -/
def userB2 : UserInfo := ⟨some "A", some "i2", none, none, none⟩

/-! ## Lemmas about the partition phase of `get_fees_batch` -/

theorem partitionGo_fees (dl : List Fee) : ∀ (i : ℕ) (st st' : PartitionState),
    partitionGo dl i st = .ok st' →
    st'.originalFees = st.originalFees ++ dl.map feeEntry := by
  induction dl with
  | nil =>
    intro i st st' h
    simp only [partitionGo, Except.ok.injEq] at h
    subst h; simp
  | cons d rest ih =>
    intro i st st' h
    simp only [partitionGo] at h
    cases hc : classifyRecord d with
    | error e => rw [hc] at h; cases h
    | ok sr =>
      rw [hc] at h
      cases sr with
      | keep q =>
        have hi := ih (i + 1) _ _ h
        simp only [hi, List.map_cons, feeEntry, hc, List.append_assoc,
          List.singleton_append]
      | failNow =>
        have hi := ih (i + 1) _ _ h
        simp only [hi, List.map_cons, feeEntry, hc, List.append_assoc,
          List.singleton_append]
      | compute k =>
        have hi := ih (i + 1) _ _ h
        simp only [hi, List.map_cons, feeEntry, hc, List.append_assoc,
          List.singleton_append]

theorem partitionGo_pos (dl : List Fee) : ∀ (i : ℕ) (st st' : PartitionState),
    partitionGo dl i st = .ok st' →
    st'.positions = st.positions ++ (computeKeyed dl i).map Prod.fst := by
  induction dl with
  | nil =>
    intro i st st' h
    simp only [partitionGo, Except.ok.injEq] at h
    subst h; simp [computeKeyed]
  | cons d rest ih =>
    intro i st st' h
    simp only [partitionGo] at h
    cases hc : classifyRecord d with
    | error e => rw [hc] at h; cases h
    | ok sr =>
      rw [hc] at h
      cases sr with
      | keep q =>
        have hi := ih (i + 1) _ _ h
        simp only [hi, computeKeyed, hc]
      | failNow =>
        have hi := ih (i + 1) _ _ h
        simp only [hi, computeKeyed, hc]
      | compute k =>
        have hi := ih (i + 1) _ _ h
        simp only [hi, computeKeyed, hc, List.map_cons, List.append_assoc,
          List.singleton_append]

theorem partitionGo_tc (dl : List Fee) : ∀ (i : ℕ) (st st' : PartitionState),
    partitionGo dl i st = .ok st' →
    st'.toCalculate = st.toCalculate ++ (computeKeyed dl i).map Prod.snd := by
  induction dl with
  | nil =>
    intro i st st' h
    simp only [partitionGo, Except.ok.injEq] at h
    subst h; simp [computeKeyed]
  | cons d rest ih =>
    intro i st st' h
    simp only [partitionGo] at h
    cases hc : classifyRecord d with
    | error e => rw [hc] at h; cases h
    | ok sr =>
      rw [hc] at h
      cases sr with
      | keep q =>
        have hi := ih (i + 1) _ _ h
        simp only [hi, computeKeyed, hc]
      | failNow =>
        have hi := ih (i + 1) _ _ h
        simp only [hi, computeKeyed, hc]
      | compute k =>
        have hi := ih (i + 1) _ _ h
        simp only [hi, computeKeyed, hc, List.map_cons, List.append_assoc,
          List.singleton_append]

theorem partitionGo_no_error (dl : List Fee) : ∀ (i : ℕ) (st st' : PartitionState),
    partitionGo dl i st = .ok st' → ∀ d ∈ dl, classifyRecord d ≠ .error () := by
  induction dl with
  | nil => intro i st st' _ d hd; cases hd
  | cons d0 rest ih =>
    intro i st st' h d hd
    simp only [partitionGo] at h
    cases hc : classifyRecord d0 with
    | error e => rw [hc] at h; cases h
    | ok sr =>
      rw [hc] at h
      rcases List.mem_cons.mp hd with rfl | hmem
      · simp [hc]
      · cases sr with
        | keep q => exact ih (i + 1) _ _ h d hmem
        | failNow => exact ih (i + 1) _ _ h d hmem
        | compute k => exact ih (i + 1) _ _ h d hmem

theorem partitionRecords_fees {dl : List Fee} {st : PartitionState}
    (h : partitionRecords dl = .ok st) : st.originalFees = dl.map feeEntry := by
  simpa using partitionGo_fees dl 0 _ _ h

theorem partitionRecords_pos {dl : List Fee} {st : PartitionState}
    (h : partitionRecords dl = .ok st) :
    st.positions = (computeKeyed dl 0).map Prod.fst := by
  simpa using partitionGo_pos dl 0 _ _ h

theorem partitionRecords_tc {dl : List Fee} {st : PartitionState}
    (h : partitionRecords dl = .ok st) :
    st.toCalculate = (computeKeyed dl 0).map Prod.snd := by
  simpa using partitionGo_tc dl 0 _ _ h

theorem partitionRecords_zip {dl : List Fee} {st : PartitionState}
    (h : partitionRecords dl = .ok st) :
    st.positions.zip st.toCalculate = computeKeyed dl 0 := by
  rw [partitionRecords_pos h, partitionRecords_tc h, List.zip_map']
  simp

theorem computeKeyed_mem {dl : List Fee} :
    ∀ {n : ℕ} {j : ℕ} {k : CalKey}, (j, k) ∈ computeKeyed dl n ↔
      ∃ m d, dl[m]? = some d ∧ j = n + m ∧ classifyRecord d = .ok (.compute k) := by
  induction dl with
  | nil => intro n j k; simp [computeKeyed]
  | cons d0 rest ih =>
    intro n j k
    constructor
    · intro hmem
      simp only [computeKeyed] at hmem
      cases hc : classifyRecord d0 with
      | error e =>
        rw [hc] at hmem
        rcases ih.mp hmem with ⟨m, d, hmd, hj, hcd⟩
        exact ⟨m + 1, d, by simpa using hmd, by omega, hcd⟩
      | ok sr =>
        rw [hc] at hmem
        cases sr with
        | keep q =>
          rcases ih.mp hmem with ⟨m, d, hmd, hj, hcd⟩
          exact ⟨m + 1, d, by simpa using hmd, by omega, hcd⟩
        | failNow =>
          rcases ih.mp hmem with ⟨m, d, hmd, hj, hcd⟩
          exact ⟨m + 1, d, by simpa using hmd, by omega, hcd⟩
        | compute k0 =>
          rcases List.mem_cons.mp hmem with heq | hmem'
          · obtain ⟨rfl, rfl⟩ := Prod.mk.inj heq
            exact ⟨0, d0, by simp, by omega, hc⟩
          · rcases ih.mp hmem' with ⟨m, d, hmd, hj, hcd⟩
            exact ⟨m + 1, d, by simpa using hmd, by omega, hcd⟩
    · rintro ⟨m, d, hmd, rfl, hcd⟩
      cases m with
      | zero =>
        simp only [List.getElem?_cons_zero, Option.some.injEq] at hmd
        subst hmd
        simp [computeKeyed, hcd]
      | succ m' =>
        simp only [List.getElem?_cons_succ] at hmd
        have : (n + 1 + m', k) ∈ computeKeyed rest (n + 1) :=
          ih.mpr ⟨m', d, hmd, rfl, hcd⟩
        have hrw : n + (m' + 1) = n + 1 + m' := by omega
        rw [hrw]
        simp only [computeKeyed]
        cases hc : classifyRecord d0 with
        | error e => exact this
        | ok sr => cases sr <;> simp_all [List.mem_cons]

theorem computeKeyed_bounds {dl : List Fee} :
    ∀ {n : ℕ} {p : ℕ × CalKey}, p ∈ computeKeyed dl n →
      n ≤ p.1 ∧ p.1 < n + dl.length := by
  induction dl with
  | nil => intro n p h; simp [computeKeyed] at h
  | cons d0 rest ih =>
    intro n p h
    simp only [computeKeyed] at h
    cases hc : classifyRecord d0 with
    | error e =>
      rw [hc] at h
      have := ih h
      simp only [List.length_cons]
      omega
    | ok sr =>
      rw [hc] at h
      cases sr with
      | keep q => have := ih h; simp only [List.length_cons]; omega
      | failNow => have := ih h; simp only [List.length_cons]; omega
      | compute k =>
        rcases List.mem_cons.mp h with rfl | h'
        · simp only [List.length_cons]; omega
        · have := ih h'; simp only [List.length_cons]; omega

theorem computeKeyed_fst_nodup {dl : List Fee} :
    ∀ {n : ℕ}, ((computeKeyed dl n).map Prod.fst).Nodup := by
  induction dl with
  | nil => intro n; simp [computeKeyed]
  | cons d0 rest ih =>
    intro n
    simp only [computeKeyed]
    cases hc : classifyRecord d0 with
    | error e => exact ih
    | ok sr =>
      cases sr with
      | keep q => exact ih
      | failNow => exact ih
      | compute k =>
        simp only [List.map_cons, List.nodup_cons]
        refine ⟨?_, ih⟩
        intro hmem
        rcases List.mem_map.mp hmem with ⟨p, hp, hfst⟩
        have := computeKeyed_bounds hp
        omega

/-! ## Lemmas about the result projection of `get_fees_batch` -/

theorem projectCache_cons (cache : List (CalKey × AmountResult))
    (pk : ℕ × CalKey) (pairs : List (ℕ × CalKey))
    (res : List AmountResult) :
    projectCache cache (pk :: pairs) res =
      projectCache cache pairs
        (res.set pk.1 ((cacheGet cache pk.2).getD .nan)) := rfl

theorem projectCache_length (cache : List (CalKey × AmountResult))
    (pairs : List (ℕ × CalKey)) :
    ∀ res : List AmountResult,
      (projectCache cache pairs res).length = res.length := by
  induction pairs with
  | nil => intro res; rfl
  | cons pk pairs ih =>
    intro res
    rw [projectCache_cons, ih, List.length_set]

theorem projectCache_not_mem (cache : List (CalKey × AmountResult))
    {pairs : List (ℕ × CalKey)} {j : ℕ} (hj : j ∉ pairs.map Prod.fst) :
    ∀ res : List AmountResult,
      (projectCache cache pairs res)[j]? = res[j]? := by
  induction pairs with
  | nil => intro res; rfl
  | cons pk pairs ih =>
    intro res
    simp only [List.map_cons, List.mem_cons] at hj
    push_neg at hj
    rw [projectCache_cons, ih hj.2, List.getElem?_set_ne (Ne.symm hj.1)]

theorem projectCache_mem (cache : List (CalKey × AmountResult))
    {pairs : List (ℕ × CalKey)} (hnd : (pairs.map Prod.fst).Nodup)
    {j : ℕ} {k : CalKey} (hmem : (j, k) ∈ pairs) :
    ∀ res : List AmountResult, j < res.length →
      (projectCache cache pairs res)[j]? =
        some ((cacheGet cache k).getD .nan) := by
  induction pairs with
  | nil => cases hmem
  | cons pk pairs ih =>
    intro res hlen
    simp only [List.map_cons, List.nodup_cons] at hnd
    rcases List.mem_cons.mp hmem with heq | hmem'
    · obtain ⟨rfl, rfl⟩ := Prod.mk.inj heq.symm
      rw [projectCache_cons,
        projectCache_not_mem cache (by simpa using hnd.1),
        List.getElem?_set_self (by exact hlen)]
    · have hne : pk.1 ≠ j := by
        intro hcontra
        exact hnd.1 (hcontra ▸ List.mem_map.mpr ⟨(j, k), hmem', hcontra ▸ rfl⟩)
      rw [projectCache_cons]
      exact ih hnd.2 hmem' _ (by rwa [List.length_set])

/-! ## Lemmas about the dedup loop of `get_fees_batch` -/

theorem mem_dedupKeysGo {seen : CalKey → Bool} {l : List CalKey} {x : CalKey} :
    x ∈ dedupKeysGo seen l ↔ x ∈ l ∧ seen x = false := by
  induction l generalizing seen with
  | nil => simp [dedupKeysGo]
  | cons y rest ih =>
    simp only [dedupKeysGo]
    by_cases hy : seen y = true
    · rw [if_pos hy, ih]
      constructor
      · rintro ⟨hx, hs⟩; exact ⟨List.mem_cons_of_mem _ hx, hs⟩
      · rintro ⟨hx, hs⟩
        rcases List.mem_cons.mp hx with rfl | hx'
        · exact absurd hy (by simp [hs])
        · exact ⟨hx', hs⟩
    · rw [if_neg hy, List.mem_cons, ih]
      constructor
      · rintro (rfl | ⟨hx, hs⟩)
        · exact ⟨List.mem_cons_self _ _, by simpa using hy⟩
        · simp only [Bool.or_eq_false_iff] at hs
          exact ⟨List.mem_cons_of_mem _ hx, hs.2⟩
      · rintro ⟨hx, hs⟩
        rcases List.mem_cons.mp hx with rfl | hx'
        · exact Or.inl rfl
        · by_cases hxy : x = y
          · exact Or.inl hxy
          · exact Or.inr ⟨hx', by simp [hs, hxy]⟩

theorem dedupKeysGo_nodup {seen : CalKey → Bool} {l : List CalKey} :
    (dedupKeysGo seen l).Nodup := by
  induction l generalizing seen with
  | nil => simp [dedupKeysGo]
  | cons y rest ih =>
    simp only [dedupKeysGo]
    by_cases hy : seen y = true
    · rw [if_pos hy]; exact ih
    · rw [if_neg hy, List.nodup_cons]
      refine ⟨fun hmem => ?_, ih⟩
      have := (mem_dedupKeysGo.mp hmem).2
      simp at this

theorem dedupKeys_nodup {l : List CalKey} : (dedupKeys l).Nodup :=
  dedupKeysGo_nodup

theorem mem_dedupKeys {l : List CalKey} {x : CalKey} :
    x ∈ dedupKeys l ↔ x ∈ l := by
  unfold dedupKeys
  rw [mem_dedupKeysGo]
  simp

theorem dedupKeysGo_insert_eq_filter {k : CalKey} {l : List CalKey} :
    ∀ seen : CalKey → Bool,
      dedupKeysGo (fun x => x == k || seen x) l =
        (dedupKeysGo seen l).filter (fun x => x ≠ k) := by
  induction l with
  | nil => intro seen; simp [dedupKeysGo]
  | cons y rest ih =>
    intro seen
    simp only [dedupKeysGo]
    by_cases hyk : y = k
    · subst hyk
      by_cases hy : seen y = true
      · rw [if_pos (by simp [hy]), if_pos hy, ih]
      · rw [if_pos (by simp), if_neg hy,
          List.filter_cons_of_neg (by simp)]
        exact (List.filter_eq_self.mpr (fun a ha => by
          have hseen := (mem_dedupKeysGo.mp ha).2
          simp only [Bool.or_eq_false_iff] at hseen
          have hay : a ≠ y := fun hc => by simp [hc] at hseen
          simpa using hay)).symm
    · by_cases hy : seen y = true
      · rw [if_pos (by simp [hy]), if_pos hy, ih]
      · rw [if_neg (by simp [hyk, hy]), if_neg hy,
          List.filter_cons_of_pos (by simp [hyk])]
        congr 1
        rw [← ih (fun x => x == y || seen x)]
        congr 1
        funext x
        show (x == y || (x == k || seen x)) = (x == k || (x == y || seen x))
        rw [Bool.or_left_comm]

theorem dedupKeys_eq_firstSeenDedup (l : List CalKey) :
    dedupKeys l = firstSeenDedup l := by
  induction l with
  | nil => rfl
  | cons k rest ih =>
    show dedupKeysGo (fun _ => false) (k :: rest) = _
    simp only [dedupKeysGo, if_neg (by simp : ¬((fun _ : CalKey => false) k = true))]
    rw [show (fun x : CalKey => x == k || (fun _ : CalKey => false) x) =
        (fun x : CalKey => x == k || (fun _ : CalKey => false) x) from rfl,
      dedupKeysGo_insert_eq_filter]
    rw [show dedupKeysGo (fun _ : CalKey => false) rest = dedupKeys rest from rfl, ih]
    rfl

theorem firstSeenDedup_nodup (l : List CalKey) : (firstSeenDedup l).Nodup := by
  rw [← dedupKeys_eq_firstSeenDedup]
  exact dedupKeys_nodup

/-! ## Lemmas about the batching of `get_fees_batch` -/

theorem chunksGo_flatten : ∀ (fuel : ℕ) (l : List CalKey), l.length ≤ fuel →
    (chunksGo fuel l).flatten = l := by
  intro fuel
  induction fuel with
  | zero =>
    intro l hl
    rw [Nat.le_zero, List.length_eq_zero] at hl
    subst hl; rfl
  | succ fuel ih =>
    intro l hl
    match l with
    | [] => rfl
    | x :: xs =>
      show (List.take 30 (x :: xs) :: chunksGo fuel (List.drop 30 (x :: xs))).flatten = _
      rw [List.flatten_cons, ih _ (by simp only [List.length_drop]; omega),
        List.take_append_drop]

theorem chunks30_flatten (l : List CalKey) : (chunks30 l).flatten = l :=
  chunksGo_flatten l.length l le_rfl

/-! ## Lemmas about the per-batch result cache of `get_fees_batch` -/

theorem batchResults_fst (oracle : List CalKey → OracleResp) (b : List CalKey) :
    (batchResults oracle b).map Prod.fst = b := by
  unfold batchResults
  cases oracle b with
  | raised => simp [Function.comp_def]
  | badDecode => simp [Function.comp_def]
  | ok vs =>
    show (if vs.length ≠ b.length then b.map (fun k => (k, AmountResult.nan))
        else b.zip vs).map Prod.fst = b
    by_cases hlen : vs.length ≠ b.length
    · rw [if_pos hlen]; simp [Function.comp_def]
    · rw [if_neg hlen]
      push_neg at hlen
      exact List.map_fst_zip _ _ (le_of_eq hlen.symm)

theorem cacheGet_append (c1 c2 : List (CalKey × AmountResult)) (k : CalKey) :
    cacheGet (c1 ++ c2) k =
      match cacheGet c1 k with
      | some v => some v
      | none => cacheGet c2 k := by
  induction c1 with
  | nil => simp [cacheGet]
  | cons p rest ih =>
    show cacheGet ((p.1, p.2) :: (rest ++ c2)) k = _
    by_cases hp : p.1 = k
    · simp [cacheGet, hp]
    · simp only [cacheGet, if_neg hp]
      exact ih

theorem cacheGet_cons (k' : CalKey) (v : AmountResult)
    (rest : List (CalKey × AmountResult)) (k : CalKey) :
    cacheGet ((k', v) :: rest) k = if k' = k then some v else cacheGet rest k := rfl

theorem cacheGet_eq_none {c : List (CalKey × AmountResult)} {k : CalKey}
    (h : k ∉ c.map Prod.fst) : cacheGet c k = none := by
  induction c with
  | nil => rfl
  | cons p rest ih =>
    simp only [List.map_cons, List.mem_cons] at h
    push_neg at h
    show cacheGet ((p.1, p.2) :: rest) k = none
    rw [cacheGet_cons, if_neg (fun hc => h.1 hc.symm)]
    exact ih h.2

theorem cacheGet_isSome_of_mem {c : List (CalKey × AmountResult)} {k : CalKey}
    (h : k ∈ c.map Prod.fst) : (cacheGet c k).isSome := by
  induction c with
  | nil => cases h
  | cons p rest ih =>
    show (cacheGet ((p.1, p.2) :: rest) k).isSome
    by_cases hp : p.1 = k
    · simp [cacheGet, hp]
    · simp only [cacheGet, if_neg hp]
      simp only [List.map_cons, List.mem_cons] at h
      rcases h with h | h
      · exact absurd h.symm hp
      · exact ih h

theorem cacheGet_map_nan {b : List CalKey} {k : CalKey} (h : k ∈ b) :
    cacheGet (b.map (fun k' => (k', AmountResult.nan))) k = some .nan := by
  induction b with
  | nil => cases h
  | cons x rest ih =>
    show cacheGet ((x, AmountResult.nan) :: rest.map _) k = _
    by_cases hx : x = k
    · simp [cacheGet, hx]
    · simp only [cacheGet, if_neg hx]
      rcases List.mem_cons.mp h with rfl | h'
      · exact absurd rfl hx
      · exact ih h'

theorem cacheGet_flatten {f : List CalKey → List (CalKey × AmountResult)}
    (hf : ∀ x, (f x).map Prod.fst = x) :
    ∀ {batches : List (List CalKey)}, batches.flatten.Nodup →
      ∀ {b : List CalKey}, b ∈ batches → ∀ {k : CalKey}, k ∈ b →
        cacheGet ((batches.map f).flatten) k = cacheGet (f b) k := by
  intro batches
  induction batches with
  | nil => intro _ b hb; cases hb
  | cons b0 rest ih =>
    intro hnd b hb k hk
    rw [List.flatten_cons] at hnd
    have hdisj := (List.nodup_append.mp hnd).2.2
    have hnd' : rest.flatten.Nodup := (List.nodup_append.mp hnd).2.1
    rw [List.map_cons, List.flatten_cons, cacheGet_append]
    rcases List.mem_cons.mp hb with rfl | hb'
    · have hsome := cacheGet_isSome_of_mem (c := f b) (by rw [hf]; exact hk)
      obtain ⟨v, hv⟩ := Option.isSome_iff_exists.mp hsome
      rw [hv]
    · have hk' : k ∈ rest.flatten := List.mem_flatten.mpr ⟨b, hb', hk⟩
      have hk0 : k ∉ b0 := fun hc => hdisj hc hk'
      rw [cacheGet_eq_none (c := f b0) (by rw [hf]; exact hk0)]
      exact ih hnd' hb' hk

/-! ## Shape lemmas about `get_fees_batch` as a whole -/

theorem get_fees_batch_ok {oracle : List CalKey → OracleResp} {dl : List Fee}
    {st : PartitionState} (hp : partitionRecords dl = .ok st) :
    get_fees_batch oracle dl =
      if st.toCalculate.isEmpty then .ok st.originalFees
      else .ok (projectCache
        (((chunks30 (dedupKeys st.toCalculate)).map (batchResults oracle)).flatten)
        (st.positions.zip st.toCalculate) st.originalFees) := by
  unfold get_fees_batch
  rw [hp]

theorem feeEntry_pynone_cases {d : Fee} (h : feeEntry d = .pynone) :
    classifyRecord d = .error () ∨ ∃ k, classifyRecord d = .ok (.compute k) := by
  unfold feeEntry at h
  cases hc : classifyRecord d with
  | error e => cases e; exact Or.inl rfl
  | ok sr =>
    rw [hc] at h
    cases sr with
    | keep q => simp at h
    | failNow => simp at h
    | compute k => exact Or.inr ⟨k, rfl⟩

/-- A partition entry is either the `None` placeholder or an actual number
(a kept finite amount or the immediate `nan` failure). -/
theorem feeEntry_numeric_or_pynone (d : Fee) :
    feeEntry d = .pynone ∨ isNumericEntry (feeEntry d) = true := by
  unfold feeEntry
  cases classifyRecord d with
  | error e => exact Or.inl rfl
  | ok sr => cases sr <;> simp [isNumericEntry]

/-- If the partition succeeded and a record's `original_fees` entry is the
`None` placeholder, that record contributed a calculation request. -/
theorem placeholder_has_request {dl : List Fee} {st : PartitionState}
    (hp : partitionRecords dl = .ok st) {j : ℕ} {d : Fee}
    (hd : dl[j]? = some d) (hnone : feeEntry d = .pynone) :
    ∃ k, (j, k) ∈ computeKeyed dl 0 := by
  rcases feeEntry_pynone_cases hnone with herr | ⟨k, hk⟩
  · exact absurd herr
      (partitionGo_no_error dl 0 _ _ hp d (List.getElem?_mem hd))
  · exact ⟨k, computeKeyed_mem.mpr ⟨j, d, hd, (Nat.zero_add j).symm, hk⟩⟩

/-- The value `get_fees_batch` returns at the position of a record that
needs computation: the cache entry for its request key (default `nan`). -/
theorem get_fees_batch_at_compute {oracle : List CalKey → OracleResp}
    {dl : List Fee} {st : PartitionState} (hp : partitionRecords dl = .ok st)
    {i : ℕ} {k : CalKey} (hik : (i, k) ∈ computeKeyed dl 0)
    {res : List AmountResult} (hres : get_fees_batch oracle dl = .ok res) :
    res[i]? = some ((cacheGet
      (((chunks30 (dedupKeys st.toCalculate)).map (batchResults oracle)).flatten)
      k).getD .nan) := by
  rw [get_fees_batch_ok hp] at hres
  have htc : st.toCalculate ≠ [] := by
    rw [partitionRecords_tc hp]
    intro hc
    rw [List.map_eq_nil_iff] at hc
    rw [hc] at hik
    cases hik
  rw [if_neg (by simpa using htc)] at hres
  have hres' := (Except.ok.inj hres).symm
  subst hres'
  have hzip := partitionRecords_zip hp
  have hnd : ((st.positions.zip st.toCalculate).map Prod.fst).Nodup := by
    rw [hzip]; exact computeKeyed_fst_nodup
  have hlen : i < st.originalFees.length := by
    rw [partitionRecords_fees hp, List.length_map]
    have := computeKeyed_bounds hik
    omega
  exact projectCache_mem _ hnd (hzip ▸ hik) _ hlen

/-- Whenever `get_fees_batch` returns, the result has the input list's
length. -/
theorem get_fees_batch_length {oracle : List CalKey → OracleResp}
    {dl : List Fee} {res : List AmountResult}
    (hres : get_fees_batch oracle dl = .ok res) :
    res.length = dl.length := by
  cases hp : partitionRecords dl with
  | error e => rw [get_fees_batch, hp] at hres; cases hres
  | ok st =>
    have hfees := partitionRecords_fees hp
    rw [get_fees_batch_ok hp] at hres
    by_cases hemp : st.toCalculate.isEmpty
    · rw [if_pos hemp] at hres
      obtain rfl := Except.ok.inj hres
      rw [hfees, List.length_map]
    · rw [if_neg hemp] at hres
      obtain rfl := Except.ok.inj hres
      rw [projectCache_length, hfees, List.length_map]

/-- A successful cache lookup returns a stored pair. -/
theorem cacheGet_mem {c : List (CalKey × AmountResult)} {k : CalKey}
    {v : AmountResult} (h : cacheGet c k = some v) : (k, v) ∈ c := by
  induction c with
  | nil => cases h
  | cons p rest ih =>
    have h' : (if p.1 = k then some p.2 else cacheGet rest k) = some v := h
    by_cases hp : p.1 = k
    · rw [if_pos hp] at h'
      obtain rfl := Option.some.inj h'
      obtain rfl := hp
      exact List.mem_cons_self _ _
    · rw [if_neg hp] at h'
      exact List.mem_cons_of_mem _ (ih h')

/-- Where a cached per-batch entry can come from: the `nan` fill of a
failed batch, or a verbatim entry of a decoded right-length response. -/
theorem batchResults_entry {oracle : List CalKey → OracleResp}
    {b : List CalKey} {k : CalKey} {v : AmountResult}
    (h : (k, v) ∈ batchResults oracle b) :
    v = .nan ∨ ∃ vs, oracle b = .ok vs ∧ vs.length = b.length ∧ v ∈ vs := by
  unfold batchResults at h
  revert h
  cases ho : oracle b with
  | raised =>
    intro h
    rcases List.mem_map.mp h with ⟨k', _, heq⟩
    exact Or.inl (Prod.mk.inj heq).2.symm
  | badDecode =>
    intro h
    rcases List.mem_map.mp h with ⟨k', _, heq⟩
    exact Or.inl (Prod.mk.inj heq).2.symm
  | ok vs =>
    intro h
    have h' : (k, v) ∈ (if vs.length ≠ b.length
        then b.map (fun k' => (k', AmountResult.nan)) else b.zip vs) := h
    by_cases hlen : vs.length ≠ b.length
    · rw [if_pos hlen] at h'
      rcases List.mem_map.mp h' with ⟨k', _, heq⟩
      exact Or.inl (Prod.mk.inj heq).2.symm
    · rw [if_neg hlen] at h'
      push_neg at hlen
      exact Or.inr ⟨vs, rfl, hlen, (List.of_mem_zip h').2⟩

/-- C10 as stated is false: the decode step checks only that the response
is a list of the right length, never the entries, so an oracle answering
the decoded list `[None]` makes `get_fees_batch` return a list whose single
entry is `None` — not a number. -/
theorem claim_C10_cex :
    get_fees_batch oracleNoneResp [recNanA] = .ok [AmountResult.pynone] ∧
    isNumericEntry AmountResult.pynone = false := by
  exact ⟨by decide, rfl⟩

/-- C10 (amended): whenever `get_fees_batch` returns, its result has
exactly the input list's length, in the same order; no `None` placeholder
of its own survives — an entry can fail to be a number only because a
decoded, right-length oracle response contained such an entry for that
record's request, and it is then passed through verbatim.  In particular,
whenever every decoded response entry is a number, every result entry is a
number. -/
theorem claim_C10_amended (oracle : List CalKey → OracleResp) (dl : List Fee)
    (res : List AmountResult) (hres : get_fees_batch oracle dl = .ok res) :
    res.length = dl.length ∧
    (∀ (j : ℕ) (o : AmountResult), res[j]? = some o →
      isNumericEntry o = false →
      ∃ b ∈ oracleBatches dl, ∃ vs, oracle b = .ok vs ∧
        vs.length = b.length ∧ o ∈ vs) ∧
    ((∀ b ∈ oracleBatches dl, ∀ vs, oracle b = .ok vs →
        ∀ e ∈ vs, isNumericEntry e = true) →
      ∀ o ∈ res, isNumericEntry o = true) := by
  cases hp : partitionRecords dl with
  | error e => rw [get_fees_batch, hp] at hres; cases hres
  | ok st =>
    have hfees := partitionRecords_fees hp
    have hmain : ∀ (j : ℕ) (o : AmountResult), res[j]? = some o →
        isNumericEntry o = false →
        ∃ b ∈ oracleBatches dl, ∃ vs, oracle b = .ok vs ∧
          vs.length = b.length ∧ o ∈ vs := by
      intro j o hj hnum
      rw [get_fees_batch_ok hp] at hres
      by_cases hemp : st.toCalculate.isEmpty
      · rw [if_pos hemp] at hres
        obtain rfl := Except.ok.inj hres
        rw [hfees, List.getElem?_map] at hj
        cases hd : dl[j]? with
        | none => rw [hd] at hj; cases hj
        | some d =>
          rw [hd] at hj
          obtain rfl := Option.some.inj hj
          rcases feeEntry_numeric_or_pynone d with hpy | hnumeric
          · obtain ⟨k, hk⟩ := placeholder_has_request hp hd hpy
            have hkey : k ∈ st.toCalculate := by
              rw [partitionRecords_tc hp]
              exact List.mem_map.mpr ⟨(j, k), hk, rfl⟩
            rw [List.isEmpty_iff.mp hemp] at hkey
            cases hkey
          · rw [hnumeric] at hnum
            cases hnum
      · rw [if_neg hemp] at hres
        obtain rfl := Except.ok.inj hres
        have hzip := partitionRecords_zip hp
        have hob : oracleBatches dl = chunks30 (dedupKeys st.toCalculate) := by
          unfold oracleBatches
          rw [hp]
          show (if st.toCalculate.isEmpty then ([] : List (List CalKey))
            else chunks30 (dedupKeys st.toCalculate)) = _
          rw [if_neg hemp]
        by_cases hjf : j ∈ (st.positions.zip st.toCalculate).map Prod.fst
        · rcases List.mem_map.mp hjf with ⟨⟨a, k⟩, hpair', hfst⟩
          have hpair : (j, k) ∈ st.positions.zip st.toCalculate := by
            rwa [show a = j from hfst] at hpair'
          have hnd : ((st.positions.zip st.toCalculate).map Prod.fst).Nodup := by
            rw [hzip]; exact computeKeyed_fst_nodup
          have hlen : j < st.originalFees.length := by
            rw [hfees, List.length_map]
            have := computeKeyed_bounds (hzip ▸ hpair)
            omega
          have hval := projectCache_mem
            (((chunks30 (dedupKeys st.toCalculate)).map (batchResults oracle)).flatten)
            hnd hpair _ hlen
          rw [hj] at hval
          obtain rfl := (Option.some.inj hval).symm
          cases hcg : cacheGet
              (((chunks30 (dedupKeys st.toCalculate)).map (batchResults oracle)).flatten)
              k with
          | none => rw [hcg] at hnum; cases hnum
          | some v =>
            rw [hcg] at hnum
            have hmem := cacheGet_mem hcg
            rcases List.mem_flatten.mp hmem with ⟨seg, hseg, hvseg⟩
            rcases List.mem_map.mp hseg with ⟨b, hb, rfl⟩
            rcases batchResults_entry hvseg with hnan | ⟨vs, hvs, hlenb, hvvs⟩
            · rw [hnan] at hnum
              cases hnum
            · exact ⟨b, by rw [hob]; exact hb, vs, hvs, hlenb, hvvs⟩
        · have hpres := projectCache_not_mem
            (((chunks30 (dedupKeys st.toCalculate)).map (batchResults oracle)).flatten)
            hjf st.originalFees
          rw [hpres, hfees, List.getElem?_map] at hj
          cases hd : dl[j]? with
          | none => rw [hd] at hj; cases hj
          | some d =>
            rw [hd] at hj
            obtain rfl := Option.some.inj hj
            rcases feeEntry_numeric_or_pynone d with hpy | hnumeric
            · obtain ⟨k, hk⟩ := placeholder_has_request hp hd hpy
              exact absurd (List.mem_map.mpr ⟨(j, k), hzip ▸ hk, rfl⟩) hjf
            · rw [hnumeric] at hnum
              cases hnum
    refine ⟨get_fees_batch_length hres, hmain, ?_⟩
    intro hwell o ho
    obtain ⟨j, hj⟩ := List.getElem?_of_mem ho
    by_cases hno : isNumericEntry o = true
    · exact hno
    · rcases hmain j o hj (by simpa using hno) with ⟨b, hb, vs, hvs, _, hov⟩
      exact hwell b hb vs hvs o hov

theorem claim_C10_witness :
    ([AmountResult.val 1600, AmountResult.val 5].length =
      ([recNanA, recValid5] : List Fee).length) ∧
    ∀ o ∈ [AmountResult.val 1600, AmountResult.val 5],
      isNumericEntry o = true := by
  have h := claim_C10_amended oracle1600 [recNanA, recValid5]
    [.val 1600, .val 5] (by decide)
  refine ⟨h.1, h.2.2 ?_⟩
  intro b hb vs hvs e he
  have h2 : OracleResp.ok [AmountResult.val 1600] = OracleResp.ok vs := hvs
  obtain rfl := OracleResp.ok.inj h2
  rcases List.mem_cons.mp he with rfl | he'
  · rfl
  · cases he'

/-- C2: two needing-computation records with exactly equal (hours-spec,
rate-spec) keys receive identical resolved results; the unique requests
submitted to the oracle are exactly the first-seen dedup of the request
list, so every unique pair occurs at most once across all oracle batches. -/
theorem claim_C2 (oracle : List CalKey → OracleResp) (dl : List Fee)
    (st : PartitionState) (res : List AmountResult)
    (hpart : partitionRecords dl = .ok st)
    (hres : get_fees_batch oracle dl = .ok res) :
    (∀ (i j : ℕ) (di dj : Fee) (k : CalKey), dl[i]? = some di → dl[j]? = some dj →
        classifyRecord di = .ok (.compute k) →
        classifyRecord dj = .ok (.compute k) → res[i]? = res[j]?)
    ∧ (oracleBatches dl).flatten = firstSeenDedup st.toCalculate
    ∧ (oracleBatches dl).flatten.Nodup := by
  have h2 : (oracleBatches dl).flatten = firstSeenDedup st.toCalculate := by
    unfold oracleBatches
    rw [hpart]
    show (if st.toCalculate.isEmpty then ([] : List (List CalKey))
      else chunks30 (dedupKeys st.toCalculate)).flatten = firstSeenDedup st.toCalculate
    by_cases hemp : st.toCalculate.isEmpty
    · rw [if_pos hemp, List.isEmpty_iff.mp hemp]
      rfl
    · rw [if_neg hemp, chunks30_flatten, dedupKeys_eq_firstSeenDedup]
  refine ⟨?_, h2, ?_⟩
  · intro i j di dj k hdi hdj hci hcj
    have hik : (i, k) ∈ computeKeyed dl 0 :=
      computeKeyed_mem.mpr ⟨i, di, hdi, (Nat.zero_add i).symm, hci⟩
    have hjk : (j, k) ∈ computeKeyed dl 0 :=
      computeKeyed_mem.mpr ⟨j, dj, hdj, (Nat.zero_add j).symm, hcj⟩
    rw [get_fees_batch_at_compute hpart hik hres,
      get_fees_batch_at_compute hpart hjk hres]
  · rw [h2]
    exact firstSeenDedup_nodup _

theorem claim_C2_witness :
    get_fees_batch oracle1600 [recNanA, recNanA] =
      .ok [AmountResult.val 1600, AmountResult.val 1600] ∧
    [AmountResult.val 1600, AmountResult.val 1600][0]? =
      [AmountResult.val 1600, AmountResult.val 1600][1]? ∧
    (oracleBatches [recNanA, recNanA]).flatten =
      firstSeenDedup [("8h", "std"), ("8h", "std")] := by
  have h := claim_C2 oracle1600 [recNanA, recNanA]
    ⟨[.pynone, .pynone], [("8h", "std"), ("8h", "std")], [0, 1]⟩
    [.val 1600, .val 1600] (by decide) (by decide)
  exact ⟨by decide,
    h.1 0 1 recNanA recNanA ("8h", "std") (by decide) (by decide)
      (by decide) (by decide),
    h.2.1⟩

theorem batchResults_bad {oracle : List CalKey → OracleResp} {b : List CalKey}
    (hbad : oracleBad (oracle b) b) :
    batchResults oracle b = b.map (fun k => (k, AmountResult.nan)) := by
  unfold batchResults
  revert hbad
  cases oracle b with
  | raised => intro _; rfl
  | badDecode => intro _; rfl
  | ok vs =>
    intro hbad
    have hlen : vs.length ≠ b.length := hbad
    show (if vs.length ≠ b.length then b.map (fun k => (k, AmountResult.nan))
        else b.zip vs) = b.map (fun k => (k, AmountResult.nan))
    exact if_pos hlen

/-- C3: if the oracle's response for one submitted batch raises, fails to
decode, or has the wrong length, then `get_fees_batch` still returns
normally, every needing-computation record whose request key lies in that
batch resolves to the `nan` failure marker, and a record whose key lies in
any submitted batch is determined by that batch's own response alone (so
other batches are unaffected by the failed one). -/
theorem claim_C3 (oracle : List CalKey → OracleResp) (dl : List Fee)
    (st : PartitionState) (hpart : partitionRecords dl = .ok st)
    (b : List CalKey) (hb : b ∈ oracleBatches dl)
    (hbad : oracleBad (oracle b) b) :
    (∃ res, get_fees_batch oracle dl = .ok res) ∧
    (∀ res, get_fees_batch oracle dl = .ok res →
      ∀ i k, (i, k) ∈ computeKeyed dl 0 → k ∈ b →
        res[i]? = some AmountResult.nan) ∧
    (∀ res, get_fees_batch oracle dl = .ok res →
      ∀ i k b', b' ∈ oracleBatches dl → k ∈ b' → (i, k) ∈ computeKeyed dl 0 →
        res[i]? = some ((cacheGet (batchResults oracle b') k).getD .nan)) := by
  have hob : oracleBatches dl =
      if st.toCalculate.isEmpty then [] else chunks30 (dedupKeys st.toCalculate) := by
    unfold oracleBatches; rw [hpart]
  have hemp : ¬st.toCalculate.isEmpty := by
    intro hc
    rw [hob, if_pos hc] at hb
    cases hb
  rw [hob, if_neg hemp] at hb
  have hnd : ((chunks30 (dedupKeys st.toCalculate)).flatten).Nodup := by
    rw [chunks30_flatten]
    exact dedupKeys_nodup
  refine ⟨?_, ?_, ?_⟩
  · rw [get_fees_batch_ok hpart, if_neg hemp]
    exact ⟨_, rfl⟩
  · intro res hres i k hik hkb
    rw [get_fees_batch_at_compute hpart hik hres,
      cacheGet_flatten (batchResults_fst oracle) hnd hb hkb,
      batchResults_bad hbad, cacheGet_map_nan hkb]
    rfl
  · intro res hres i k b' hb' hkb' hik
    rw [hob, if_neg hemp] at hb'
    rw [get_fees_batch_at_compute hpart hik hres,
      cacheGet_flatten (batchResults_fst oracle) hnd hb' hkb']

theorem claim_C3_witness :
    get_fees_batch oracleRaise [recNanA] = .ok [AmountResult.nan] ∧
    [AmountResult.nan][0]? = some AmountResult.nan := by
  have h := claim_C3 oracleRaise [recNanA] ⟨[.pynone], [("8h", "std")], [0]⟩
    (by decide) [("8h", "std")] (by decide) (by trivial)
  exact ⟨by decide, h.2.1 _ (by decide) 0 ("8h", "std") (by decide) (by decide)⟩

/-- C4 (code bug): the partition step of `get_fees_batch` is not total.  On
a record whose amount field is absent (`data.get('金额')` is Python `None`),
`str(fee)` is the nonempty text "None", so the guard proceeds to
`math.isnan(None)`, which raises `TypeError`; the claimed classification as
"needing computation" never happens and the exception escapes
`get_fees_batch`. -/
theorem claim_C4_bug :
    classifyRecord recNoAmount = .error () ∧
    get_fees_batch oracleRaise [recNoAmount] = .error () := by
  exact ⟨rfl, rfl⟩

/-! ## Lemmas about the validation loop of `supplement_fee_info` -/

theorem validateFees_fst (l : List Fee) :
    (validateFees l).1 = l.filter validName := by
  induction l with
  | nil => rfl
  | cons f rest ih =>
    show ((let vc := validateFees rest;
      if validName f then (f :: vc.1, vc.2) else (vc.1, vc.2 + 1)) : List Fee × ℕ).1
      = List.filter validName (f :: rest)
    rw [List.filter_cons]
    by_cases hv : validName f
    · rw [if_pos hv, if_pos hv, ih]
    · rw [if_neg hv, if_neg (by simpa using hv), ih]

theorem validateFees_snd (l : List Fee) :
    (validateFees l).2 = (l.filter (fun f => !validName f)).length := by
  induction l with
  | nil => rfl
  | cons f rest ih =>
    show ((let vc := validateFees rest;
      if validName f then (f :: vc.1, vc.2) else (vc.1, vc.2 + 1)) : List Fee × ℕ).2
      = (List.filter (fun f => !validName f) (f :: rest)).length
    rw [List.filter_cons]
    by_cases hv : validName f
    · rw [if_pos hv, if_neg (by simp [hv]), ih]
    · rw [if_neg hv, if_pos (by simp [hv]), ih, List.length_cons]

/-! ## Lemmas about the main loop of `supplement_fee_info` -/

theorem step_unmatched {usersGet : String → List UserInfo}
    {st : SupplementState} {fee : Fee}
    (h : usersGet (stripSpaces (fee.name.getD "")) = []) :
    supplementStep usersGet st fee =
      { st with
        tempFees := st.tempFees ++ [full_fee fee emptyUser]
        idx := st.idx + 1
        indicesMap := st.indicesMap ++ [st.feeResult.length]
        feeResult := st.feeResult ++ [full_fee fee emptyUser]
        noMatchList := st.noMatchList ++ [st.idx + 1] } := by
  unfold supplementStep
  rw [h]
  rfl

theorem step_matched {usersGet : String → List UserInfo}
    {st : SupplementState} {fee : Fee} {u : UserInfo}
    (h : usersGet (stripSpaces (fee.name.getD "")) = [u]) :
    supplementStep usersGet st fee = appendFee st (full_fee fee u) := by
  unfold supplementStep
  rw [h]

theorem handleUsers_fst (fee : Fee) (users : List UserInfo) :
    ∀ (st : SupplementState) (ri : List ℕ),
      (handleUsers fee users (st, ri)).1 =
        { st with
          tempFees := st.tempFees ++ users.map (full_fee fee)
          idx := st.idx + users.length
          indicesMap := st.indicesMap ++
            (List.range users.length).map (st.feeResult.length + ·)
          feeResult := st.feeResult ++ users.map (full_fee fee) } := by
  induction users with
  | nil =>
    intro st ri
    show st = _
    cases st
    simp [handleUsers]
  | cons u us ih =>
    intro st ri
    show (handleUsers fee us (appendFee st (full_fee fee u), ri ++ [st.idx + 1])).1 = _
    rw [ih]
    unfold appendFee
    congr 1 <;> simp only [List.map_cons, List.length_cons, List.append_assoc,
      List.singleton_append, List.length_append, List.length_map]
    · omega
    · congr 1
      rw [List.range_succ_eq_map, List.map_cons, List.map_map]
      congr 1
      exact List.map_congr_left
        (fun t _ => by simp only [Function.comp_def, List.length_nil]; omega)

theorem handleUsers_snd (fee : Fee) (users : List UserInfo) :
    ∀ (st : SupplementState) (ri : List ℕ),
      (handleUsers fee users (st, ri)).2 =
        ri ++ (List.range users.length).map (fun t => st.idx + t + 1) := by
  induction users with
  | nil =>
    intro st ri
    show ri = _
    simp
  | cons u us ih =>
    intro st ri
    show (handleUsers fee us (appendFee st (full_fee fee u), ri ++ [st.idx + 1])).2 = _
    rw [ih]
    show (ri ++ [st.idx + 1]) ++
        (List.range us.length).map (fun t => st.idx + 1 + t + 1) = _
    rw [List.append_assoc, List.singleton_append, List.length_cons,
      List.range_succ_eq_map, List.map_cons, List.map_map]
    congr 2
    exact List.map_congr_left
      (fun t _ => by simp only [Function.comp_def]; omega)

theorem nodup_append_fresh {A B ri : List ℕ} (hnd : (A ++ B).Nodup)
    (hri : ri.Nodup) (hfresh : ∀ p ∈ ri, p ∉ A ++ B) :
    ((A ++ ri) ++ B).Nodup := by
  have hperm : List.Perm ((A ++ ri) ++ B) ((A ++ B) ++ ri) := by
    rw [List.append_assoc, List.append_assoc]
    exact List.Perm.append_left A List.perm_append_comm
  exact hperm.symm.nodup
    (hnd.append hri (fun a haAB hari => hfresh a hari haAB))

theorem supplementStep_inv {usersGet : String → List UserInfo}
    {st : SupplementState} (fee : Fee) (hinv : StateInv st) :
    StateInv (supplementStep usersGet st fee) := by
  obtain ⟨htemp, him, hidx, hbound, hnd⟩ := hinv
  unfold supplementStep
  cases husers : usersGet (stripSpaces (fee.name.getD "")) with
  | nil =>
    refine ⟨?_, ?_, ?_, ?_, ?_⟩
    · show st.tempFees ++ _ = st.feeResult ++ _
      rw [htemp]
    · show st.indicesMap ++ [st.feeResult.length] =
        List.range (st.feeResult ++ [full_fee fee emptyUser]).length
      rw [him, List.length_append, List.length_singleton, List.range_succ]
    · show st.idx + 1 = (st.feeResult ++ [full_fee fee emptyUser]).length + 1
      rw [List.length_append, List.length_singleton, hidx]
    · intro p hp
      show 2 ≤ p ∧ p ≤ st.idx + 1
      rcases List.mem_append.mp hp with hp' | hp'
      · have := hbound p (List.mem_append.mpr (Or.inl hp'))
        omega
      · rcases List.mem_append.mp hp' with hp'' | hp''
        · have := hbound p (List.mem_append.mpr (Or.inr hp''))
          omega
        · have : p = st.idx + 1 := by simpa using hp''
          omega
    · show (st.repeatList.flatten ++ (st.noMatchList ++ [st.idx + 1])).Nodup
      rw [← List.append_assoc]
      refine (List.nodup_append.mpr ⟨hnd, List.nodup_singleton _, ?_⟩)
      intro a ha hmem
      have := hbound a ha
      have : a = st.idx + 1 := by simpa using hmem
      omega
  | cons u us =>
    cases us with
    | nil =>
      refine ⟨?_, ?_, ?_, ?_, ?_⟩
      · show st.tempFees ++ _ = st.feeResult ++ _
        rw [htemp]
      · show st.indicesMap ++ [st.feeResult.length] =
          List.range (st.feeResult ++ [full_fee fee u]).length
        rw [him, List.length_append, List.length_singleton, List.range_succ]
      · show st.idx + 1 = (st.feeResult ++ [full_fee fee u]).length + 1
        rw [List.length_append, List.length_singleton, hidx]
      · intro p hp
        show 2 ≤ p ∧ p ≤ st.idx + 1
        have := hbound p hp
        omega
      · exact hnd
    | cons v vs =>
      have hfst := handleUsers_fst fee (u :: v :: vs) st []
      have hsnd := handleUsers_snd fee (u :: v :: vs) st []
      show StateInv
        { (handleUsers fee (u :: v :: vs) (st, [])).1 with
          repeatList := (handleUsers fee (u :: v :: vs) (st, [])).1.repeatList ++
            [(handleUsers fee (u :: v :: vs) (st, [])).2] }
      rw [hfst, hsnd]
      set L := (u :: v :: vs).length with hL
      set newFees := (u :: v :: vs).map (full_fee fee) with hnew
      set ri := (List.range L).map (fun t => st.idx + t + 1) with hri
      have hriBound : ∀ p ∈ ri, st.idx + 1 ≤ p ∧ p ≤ st.idx + L := by
        intro p hp
        rcases List.mem_map.mp hp with ⟨t, ht, rfl⟩
        have := List.mem_range.mp ht
        omega
      have hLlen : newFees.length = L := by rw [hnew, List.length_map]
      refine ⟨?_, ?_, ?_, ?_, ?_⟩
      · show st.tempFees ++ newFees = st.feeResult ++ newFees
        rw [htemp]
      · show st.indicesMap ++ (List.range L).map (st.feeResult.length + ·) =
          List.range (st.feeResult ++ newFees).length
        rw [him, List.length_append, hLlen, List.range_add]
      · show st.idx + L = (st.feeResult ++ newFees).length + 1
        rw [List.length_append, hLlen, hidx]
        omega
      · intro p hp
        show 2 ≤ p ∧ p ≤ st.idx + L
        rw [List.flatten_append, List.flatten_cons, List.flatten_nil,
          List.append_nil] at hp
        rcases List.mem_append.mp hp with hp' | hp'
        · rcases List.mem_append.mp hp' with hp'' | hp''
          · have := hbound p (List.mem_append.mpr (Or.inl hp''))
            omega
          · have := hriBound p hp''
            have : 1 ≤ st.idx := by omega
            omega
        · have := hbound p (List.mem_append.mpr (Or.inr hp'))
          omega
      · show ((st.repeatList ++ [ri]).flatten ++ st.noMatchList).Nodup
        rw [List.flatten_append, List.flatten_cons, List.flatten_nil,
          List.append_nil]
        refine nodup_append_fresh hnd ?_ ?_
        · refine (List.nodup_range L).map ?_
          intro a b hab
          have h' : st.idx + a + 1 = st.idx + b + 1 := hab
          omega
        · intro p hp hmem
          have h1 := hriBound p hp
          have h2 := hbound p hmem
          omega

theorem supplementLoop_inv (usersGet : String → List UserInfo) :
    ∀ (fees : List Fee) (st : SupplementState), StateInv st →
      StateInv (supplementLoop usersGet fees st) := by
  intro fees
  induction fees with
  | nil => intro st h; exact h
  | cons fee rest ih =>
    intro st h
    exact ih _ (supplementStep_inv fee h)

theorem initState_inv : StateInv initState := by
  refine ⟨rfl, rfl, rfl, ?_, ?_⟩ <;> simp [initState]

theorem matchedState_inv (coll : List UserInfo) (validFeeInfo : List Fee) :
    StateInv (matchedState coll validFeeInfo) :=
  supplementLoop_inv _ _ _ initState_inv

/-! ## Lemmas about the amount write-back of `supplement_fee_info` -/

theorem applyAmountsGo_length (pairs : List (ℕ × AmountResult)) :
    ∀ fr : List Fee, (applyAmountsGo pairs fr).length = fr.length := by
  induction pairs with
  | nil => intro fr; rfl
  | cons pc rest ih =>
    obtain ⟨p, c⟩ := pc
    intro fr
    cases c with
    | val q =>
      show (applyAmountsGo rest
        (fr.modify (fun f => { f with amount := .vnum q }) p)).length = _
      rw [ih, List.length_modify]
    | nan => exact ih fr
    | pynone => exact ih fr
    | other s => rfl

theorem applyAmounts_length (fr : List Fee) (im : List ℕ)
    (calcRes : List AmountResult) :
    (applyAmounts fr im calcRes).length = fr.length :=
  applyAmountsGo_length _ _

/-- The write-back only touches the `金额` field, so names survive it (also
through an aborted run). -/
theorem applyAmountsGo_names (pairs : List (ℕ × AmountResult)) :
    ∀ fr : List Fee,
      (applyAmountsGo pairs fr).map (fun fe => fe.name) =
        fr.map (fun fe => fe.name) := by
  induction pairs with
  | nil => intro fr; rfl
  | cons pc rest ih =>
    obtain ⟨p, c⟩ := pc
    intro fr
    cases c with
    | val q =>
      show (applyAmountsGo rest
        (fr.modify (fun f => { f with amount := .vnum q }) p)).map _ = _
      rw [ih]
      apply List.ext_getElem?
      intro j
      rw [List.getElem?_map, List.getElem?_map, List.getElem?_modify]
      cases fr[j]? with
      | none => rfl
      | some ffr => by_cases hpj : p = j <;> simp [hpj]
    | nan => exact ih fr
    | pynone => exact ih fr
    | other s => rfl

/-- If every write-back entry aimed at slot `j` carries the value `q` and
the slot already holds `q`, it still holds `q` afterwards — whether the
loop reaches `j`, skips it, or aborts first. -/
theorem applyAmountsGo_keep_val {q : ℚ} :
    ∀ (pairs : List (ℕ × AmountResult)) (fr : List Fee) (j : ℕ),
      (∀ c, (j, c) ∈ pairs → c = .val q) →
      (fr[j]?).map (fun fe => fe.amount) = some (.vnum q) →
      ((applyAmountsGo pairs fr)[j]?).map (fun fe => fe.amount) =
        some (.vnum q) := by
  intro pairs
  induction pairs with
  | nil => intro fr j _ hfr; exact hfr
  | cons pc rest ih =>
    obtain ⟨p, c⟩ := pc
    intro fr j hall hfr
    have hall' : ∀ c', (j, c') ∈ rest → c' = .val q :=
      fun c' hc' => hall c' (List.mem_cons_of_mem _ hc')
    cases c with
    | val q0 =>
      show ((applyAmountsGo rest
        (fr.modify (fun f => { f with amount := .vnum q0 }) p))[j]?).map _ = _
      apply ih _ j hall'
      by_cases hpj : p = j
      · subst hpj
        have hq0 : AmountResult.val q0 = .val q :=
          hall _ (List.mem_cons_self _ _)
        obtain rfl := AmountResult.val.inj hq0
        rw [List.getElem?_modify_eq]
        cases hfp : fr[p]? with
        | none => rw [hfp] at hfr; cases hfr
        | some ffr => rfl
      · rw [List.getElem?_modify_ne _ _ hpj]
        exact hfr
    | nan => exact ih _ j hall' hfr
    | pynone => exact ih _ j hall' hfr
    | other s => exact hfr

/-- With the identity index map, a calculated entry `val q` for a slot that
already holds `q` leaves the slot's amount at exactly `q`. -/
theorem applyAmounts_keep_val {fr : List Fee} {calcRes : List AmountResult}
    {j : ℕ} {q : ℚ} (hc : calcRes[j]? = some (.val q))
    (hfr : (fr[j]?).map (fun fe => fe.amount) = some (.vnum q)) :
    ((applyAmounts fr (List.range fr.length) calcRes)[j]?).map
      (fun fe => fe.amount) = some (.vnum q) := by
  apply applyAmountsGo_keep_val _ _ _ ?_ hfr
  intro c hmem
  obtain ⟨i, hi⟩ := List.getElem?_of_mem hmem
  obtain ⟨hr, hcr⟩ := List.getElem?_zip_eq_some.mp hi
  obtain ⟨hlt, hrv⟩ := List.getElem?_eq_some.mp hr
  have hij : i = j := by
    rw [List.getElem_range] at hrv
    exact hrv
  rw [hij, hc] at hcr
  exact (Option.some.inj hcr).symm

/-! ## Branch characterizations of `supplement_fee_info` -/

theorem supplement_empty (oracle : List CalKey → OracleResp)
    (c : Option (List UserInfo)) :
    supplement_fee_info oracle c [] = .ok [] [] [] := rfl

theorem supplement_badRequest {oracle : List CalKey → OracleResp}
    {coll : List UserInfo} {feeInfo : List Fee} (hne : feeInfo ≠ [])
    (hval : (validateFees feeInfo).1 = []) :
    supplement_fee_info oracle (some coll) feeInfo = .badRequest := by
  unfold supplement_fee_info
  rw [if_neg (by simpa using hne)]
  show (if ((validateFees feeInfo).1).isEmpty then SupplementResult.badRequest
    else _) = _
  rw [if_pos (by simpa using hval)]

theorem supplement_main {oracle : List CalKey → OracleResp}
    {coll : List UserInfo} {feeInfo : List Fee} (hne : feeInfo ≠ [])
    (hval : (validateFees feeInfo).1 ≠ []) :
    supplement_fee_info oracle (some coll) feeInfo =
      (if (matchedState coll (validateFees feeInfo).1).tempFees.isEmpty then
        .ok [] [] []
      else
        match get_fees_batch oracle
            (matchedState coll (validateFees feeInfo).1).tempFees with
        | .error _ =>
          .ok (matchedState coll (validateFees feeInfo).1).feeResult
            (matchedState coll (validateFees feeInfo).1).repeatList
            (matchedState coll (validateFees feeInfo).1).noMatchList
        | .ok calculated =>
          .ok (applyAmounts (matchedState coll (validateFees feeInfo).1).feeResult
              (matchedState coll (validateFees feeInfo).1).indicesMap calculated)
            (matchedState coll (validateFees feeInfo).1).repeatList
            (matchedState coll (validateFees feeInfo).1).noMatchList) := by
  unfold supplement_fee_info
  rw [if_neg (by simpa using hne)]
  show (if ((validateFees feeInfo).1).isEmpty then SupplementResult.badRequest
    else _) = _
  rw [if_neg (by simpa using hval)]

/-- C9: when the collection handle is `None`, `supplement_fee_info` neither
raises nor alters anything: it returns the input records unchanged together
with empty duplicate-group and unmatched lists. -/
theorem claim_C9 (oracle : List CalKey → OracleResp) (feeInfo : List Fee) :
    supplement_fee_info oracle none feeInfo = .ok feeInfo [] [] := by
  unfold supplement_fee_info
  by_cases h : feeInfo.isEmpty
  · rw [if_pos h, List.isEmpty_iff.mp h]
  · rw [if_neg h]

/-- C1 as stated is false: a single-record unmatched run records position 2
for the record appended at zero-based output index 0, and 2 lies outside
`[0, 1)`. -/
theorem claim_C1_cex :
    supplement_fee_info oracleRaise (some []) [feeA] = .ok [feeA] [] [2] ∧
    ¬(2 < ([feeA] : List Fee).length) := by
  exact ⟨by decide, by decide⟩

/-- C1 (amended): positions are recorded with a fixed +2 offset — the value
stored for a record appended at zero-based output index `p` is `p + 2` (the
unmatched branch stores the incremented `index`, the duplicate branch stores
one such value per fanned-out profile) — hence all recorded values are
distinct, the duplicate-group values and the unmatched values are disjoint,
and every recorded value lies in `[2, len(output) + 2)`. -/
theorem claim_C1_amended (oracle : List CalKey → OracleResp)
    (coll : List UserInfo) (feeInfo : List Fee)
    (fees : List Fee) (reps : List (List ℕ)) (nm : List ℕ)
    (h : supplement_fee_info oracle (some coll) feeInfo = .ok fees reps nm) :
    ((∀ p ∈ reps.flatten ++ nm, 2 ≤ p ∧ p < fees.length + 2) ∧
      (reps.flatten ++ nm).Nodup) ∧
    (∀ (usersGet : String → List UserInfo) (st : SupplementState) (fee : Fee),
      usersGet (stripSpaces (fee.name.getD "")) = [] →
      st.idx = st.feeResult.length + 1 →
      (supplementStep usersGet st fee).noMatchList =
          st.noMatchList ++ [st.feeResult.length + 2] ∧
      (supplementStep usersGet st fee).feeResult =
          st.feeResult ++ [full_fee fee emptyUser]) ∧
    (∀ (usersGet : String → List UserInfo) (st : SupplementState) (fee : Fee)
      (u v : UserInfo) (us : List UserInfo),
      usersGet (stripSpaces (fee.name.getD "")) = u :: v :: us →
      st.idx = st.feeResult.length + 1 →
      (supplementStep usersGet st fee).repeatList =
          st.repeatList ++ [(List.range (u :: v :: us).length).map
            (fun t => st.feeResult.length + t + 2)] ∧
      (supplementStep usersGet st fee).feeResult =
          st.feeResult ++ (u :: v :: us).map (full_fee fee)) := by
  refine ⟨?_, ?_, ?_⟩
  · by_cases hne : feeInfo = []
    · subst hne
      rw [supplement_empty] at h
      simp only [SupplementResult.ok.injEq] at h
      obtain ⟨rfl, rfl, rfl⟩ := h
      exact ⟨fun p hp => absurd hp (by simp), by simp⟩
    · by_cases hval : (validateFees feeInfo).1 = []
      · rw [supplement_badRequest hne hval] at h
        cases h
      · rw [supplement_main hne hval] at h
        obtain ⟨htemp, him, hidx, hbound, hnd⟩ :=
          matchedState_inv coll (validateFees feeInfo).1
        by_cases hemp : (matchedState coll (validateFees feeInfo).1).tempFees.isEmpty
        · rw [if_pos hemp] at h
          simp only [SupplementResult.ok.injEq] at h
          obtain ⟨rfl, rfl, rfl⟩ := h
          exact ⟨fun p hp => absurd hp (by simp), by simp⟩
        · rw [if_neg hemp] at h
          cases hgf : get_fees_batch oracle
              (matchedState coll (validateFees feeInfo).1).tempFees with
          | error e =>
            rw [hgf] at h
            simp only [SupplementResult.ok.injEq] at h
            obtain ⟨rfl, rfl, rfl⟩ := h
            refine ⟨fun p hp => ?_, hnd⟩
            have := hbound p hp
            omega
          | ok calculated =>
            rw [hgf] at h
            simp only [SupplementResult.ok.injEq] at h
            obtain ⟨rfl, rfl, rfl⟩ := h
            refine ⟨fun p hp => ?_, hnd⟩
            have h1 := hbound p hp
            have h2 := applyAmounts_length
              (matchedState coll (validateFees feeInfo).1).feeResult
              (matchedState coll (validateFees feeInfo).1).indicesMap calculated
            omega
  · intro usersGet st fee husers hidx
    rw [step_unmatched husers]
    exact ⟨by rw [hidx], rfl⟩
  · intro usersGet st fee u v us husers hidx
    unfold supplementStep
    rw [husers]
    have hfst := handleUsers_fst fee (u :: v :: us) st []
    have hsnd := handleUsers_snd fee (u :: v :: us) st []
    constructor
    · show (handleUsers fee (u :: v :: us) (st, [])).1.repeatList ++
          [(handleUsers fee (u :: v :: us) (st, [])).2] = _
      rw [hfst, hsnd]
      show st.repeatList ++ _ = st.repeatList ++ _
      congr 2
      rw [List.nil_append]
      exact List.map_congr_left (fun t _ => by omega)
    · show (handleUsers fee (u :: v :: us) (st, [])).1.feeResult = _
      rw [hfst]

theorem claim_C1_witness :
    (∀ p ∈ ([] : List (List ℕ)).flatten ++ [2],
      2 ≤ p ∧ p < ([feeA] : List Fee).length + 2) ∧
    (([] : List (List ℕ)).flatten ++ [2]).Nodup := by
  have h := claim_C1_amended oracleRaise [] [feeA] [feeA] [] [2] (by decide)
  exact h.1

/-! ## Lemmas about keep-classified records -/

theorem classifyRecord_keep {d : Fee} {q : ℚ} (hq : d.amount = .vnum q) :
    classifyRecord d = .ok (.keep q) := by
  unfold classifyRecord
  rw [hq]
  rfl

/-- A record with a finite numeric amount keeps exactly that amount in the
`get_fees_batch` result and never contributes a request position. -/
theorem get_fees_batch_at_keep {oracle : List CalKey → OracleResp}
    {dl : List Fee} {st : PartitionState}
    (hpart : partitionRecords dl = .ok st)
    {res : List AmountResult}
    (hres : get_fees_batch oracle dl = .ok res) {i : ℕ} {d : Fee} {q : ℚ}
    (hd : dl[i]? = some d) (hq : d.amount = .vnum q) :
    res[i]? = some (.val q) ∧ i ∉ st.positions := by
  have hcl : classifyRecord d = .ok (.keep q) := classifyRecord_keep hq
  have hpos : i ∉ st.positions := by
    rw [partitionRecords_pos hpart]
    intro hmem
    rcases List.mem_map.mp hmem with ⟨⟨i', k⟩, hmem', hfst⟩
    rw [show i' = i from hfst] at hmem'
    rcases computeKeyed_mem.mp hmem' with ⟨m, d', hmd, hi, hcd⟩
    rw [show m = i by omega, hd] at hmd
    obtain rfl := Option.some.inj hmd
    rw [hcl] at hcd
    cases hcd
  have hofees : st.originalFees[i]? = some (.val q) := by
    rw [partitionRecords_fees hpart, List.getElem?_map, hd]
    show some (feeEntry d) = _
    unfold feeEntry
    rw [hcl]
  refine ⟨?_, hpos⟩
  rw [get_fees_batch_ok hpart] at hres
  by_cases hemp : st.toCalculate.isEmpty
  · rw [if_pos hemp] at hres
    obtain rfl := Except.ok.inj hres
    exact hofees
  · rw [if_neg hemp] at hres
    obtain rfl := Except.ok.inj hres
    have hjf : i ∉ (st.positions.zip st.toCalculate).map Prod.fst := by
      intro hmem
      rcases List.mem_map.mp hmem with ⟨⟨a, b⟩, hpk, hfst⟩
      rw [show a = i from hfst] at hpk
      exact hpos (List.of_mem_zip hpk).1
    rw [projectCache_not_mem _ hjf]
    exact hofees

/-- C8: a record entering the amount-resolution stage with a finite numeric
amount is never included in an oracle batch (its index is never recorded as
a request position), leaves `get_fees_batch` with exactly that amount, and
the write-back of `supplement_fee_info` leaves the corresponding output
record's amount at exactly that value. -/
theorem claim_C8 (oracle : List CalKey → OracleResp) :
    (∀ (dl : List Fee) (st : PartitionState) (res : List AmountResult)
      (i : ℕ) (d : Fee) (q : ℚ), partitionRecords dl = .ok st →
      get_fees_batch oracle dl = .ok res → dl[i]? = some d →
      d.amount = .vnum q →
      res[i]? = some (.val q) ∧ i ∉ st.positions) ∧
    (∀ (coll : List UserInfo) (feeInfo fees : List Fee)
      (reps : List (List ℕ)) (nm : List ℕ) (j : ℕ) (tf : Fee) (q : ℚ),
      supplement_fee_info oracle (some coll) feeInfo = .ok fees reps nm →
      (matchedState coll (validateFees feeInfo).1).tempFees[j]? = some tf →
      tf.amount = .vnum q →
      (fees[j]?).map (fun fe => fe.amount) = some (.vnum q)) := by
  constructor
  · intro dl st res i d q hpart hres hd hq
    exact get_fees_batch_at_keep hpart hres hd hq
  · intro coll feeInfo fees reps nm j tf q h htf hq
    by_cases hne : feeInfo = []
    · subst hne
      have : (matchedState coll (validateFees ([] : List Fee)).1).tempFees = [] := rfl
      rw [this] at htf
      cases htf
    · by_cases hval : (validateFees feeInfo).1 = []
      · rw [supplement_badRequest hne hval] at h
        cases h
      · rw [supplement_main hne hval] at h
        obtain ⟨htemp, him, hidx, _, _⟩ :=
          matchedState_inv coll (validateFees feeInfo).1
        by_cases hemp :
            (matchedState coll (validateFees feeInfo).1).tempFees.isEmpty
        · rw [List.isEmpty_iff.mp hemp] at htf
          cases htf
        · rw [if_neg hemp] at h
          cases hgf : get_fees_batch oracle
              (matchedState coll (validateFees feeInfo).1).tempFees with
          | error e =>
            rw [hgf] at h
            simp only [SupplementResult.ok.injEq] at h
            obtain ⟨rfl, rfl, rfl⟩ := h
            rw [← htemp, htf]
            show some tf.amount = _
            rw [hq]
          | ok calculated =>
            rw [hgf] at h
            simp only [SupplementResult.ok.injEq] at h
            obtain ⟨rfl, rfl, rfl⟩ := h
            cases hpart : partitionRecords
                (matchedState coll (validateFees feeInfo).1).tempFees with
            | error e => rw [get_fees_batch, hpart] at hgf; cases hgf
            | ok pst =>
              have hcalc : calculated[j]? = some (.val q) :=
                (get_fees_batch_at_keep hpart hgf htf hq).1
              rw [him]
              apply applyAmounts_keep_val hcalc
              rw [← htemp, htf]
              show some tf.amount = _
              rw [hq]

theorem claim_C8_witness :
    (([AmountResult.val 5] : List AmountResult)[0]? =
        some (AmountResult.val 5) ∧
      0 ∉ (⟨[AmountResult.val 5], [], []⟩ : PartitionState).positions) ∧
    ((([recValid5] : List Fee))[0]?).map (fun fe => fe.amount) =
      some (FeeVal.vnum 5) := by
  refine ⟨(claim_C8 oracle1600).1 [recValid5] _ _ 0 recValid5 5
    (by decide) (by decide) (by decide) (by decide), ?_⟩
  exact (claim_C8 oracle1600).2 [] [recValid5] [recValid5] [] [2] 0 recValid5 5
    (by decide) (by decide) (by decide)

/-! ## The validation/error contract of `supplement_fee_info` -/

theorem filter_validName_idem (l : List Fee) :
    (l.filter validName).filter validName = l.filter validName := by
  rw [List.filter_filter]
  exact List.filter_congr (fun f _ => Bool.and_self _)

/-- C7 as stated is false at the empty input list: every record of the
empty input (vacuously) lacks a non-empty name, yet the call returns an
empty success packet instead of failing with the NoValidRecords error. -/
theorem claim_C7_cex :
    (∀ f ∈ ([] : List Fee), validName f = false) ∧
    supplement_fee_info oracleRaise (some []) [] ≠ .badRequest := by
  exact ⟨by simp, by decide⟩

/-- C7 (amended): given an available collection handle, the call fails with
the NoValidRecords error iff the input is nonempty and every record lacks a
non-empty name; the drop count equals the number of records with no
non-empty name; and when at least one record has a non-empty name the run
continues over exactly the remaining records (pre-dropping the nameless
records changes nothing). -/
theorem claim_C7_amended (oracle : List CalKey → OracleResp)
    (coll : List UserInfo) (feeInfo : List Fee) :
    (supplement_fee_info oracle (some coll) feeInfo = .badRequest ↔
      feeInfo ≠ [] ∧ ∀ f ∈ feeInfo, validName f = false) ∧
    (validateFees feeInfo).2 = (feeInfo.filter (fun f => !validName f)).length ∧
    ((∃ f ∈ feeInfo, validName f = true) →
      supplement_fee_info oracle (some coll) feeInfo =
        supplement_fee_info oracle (some coll) (feeInfo.filter validName)) := by
  refine ⟨⟨?_, ?_⟩, validateFees_snd feeInfo, ?_⟩
  · intro hbr
    by_cases hne : feeInfo = []
    · subst hne
      rw [supplement_empty] at hbr
      cases hbr
    · refine ⟨hne, ?_⟩
      by_cases hval : (validateFees feeInfo).1 = []
      · rw [validateFees_fst] at hval
        intro f hf
        have := List.filter_eq_nil_iff.mp hval f hf
        simpa using this
      · rw [supplement_main hne hval] at hbr
        by_cases hemp :
            (matchedState coll (validateFees feeInfo).1).tempFees.isEmpty
        · rw [if_pos hemp] at hbr
          cases hbr
        · rw [if_neg hemp] at hbr
          cases hgf : get_fees_batch oracle
              (matchedState coll (validateFees feeInfo).1).tempFees with
          | error e => rw [hgf] at hbr; cases hbr
          | ok calculated => rw [hgf] at hbr; cases hbr
  · rintro ⟨hne, hall⟩
    refine supplement_badRequest hne ?_
    rw [validateFees_fst]
    exact List.filter_eq_nil_iff.mpr (fun f hf => by simp [hall f hf])
  · rintro ⟨f, hf, hvf⟩
    have hne : feeInfo ≠ [] := List.ne_nil_of_mem hf
    have hmemf : f ∈ feeInfo.filter validName := List.mem_filter.mpr ⟨hf, hvf⟩
    have hval : (validateFees feeInfo).1 ≠ [] := by
      rw [validateFees_fst]
      exact List.ne_nil_of_mem hmemf
    have hne2 : feeInfo.filter validName ≠ [] := List.ne_nil_of_mem hmemf
    have hval2 : (validateFees (feeInfo.filter validName)).1 ≠ [] := by
      rw [validateFees_fst, filter_validName_idem]
      exact List.ne_nil_of_mem hmemf
    rw [supplement_main hne hval, supplement_main hne2 hval2,
      validateFees_fst, validateFees_fst, filter_validName_idem]

theorem claim_C7_witness :
    (supplement_fee_info oracleRaise (some []) [feeNoName] = .badRequest ↔
      ([feeNoName] : List Fee) ≠ [] ∧
        ∀ f ∈ ([feeNoName] : List Fee), validName f = false) ∧
    supplement_fee_info oracleRaise (some []) [feeA, feeNoName] =
      supplement_fee_info oracleRaise (some [])
        (([feeA, feeNoName] : List Fee).filter validName) := by
  refine ⟨(claim_C7_amended oracleRaise [] [feeNoName]).1, ?_⟩
  exact (claim_C7_amended oracleRaise [] [feeA, feeNoName]).2.2
    ⟨feeA, by decide, by decide⟩

/-! ## Lemmas about names through merging and the write-back -/

theorem full_fee_name_some {fee : Fee} {u : UserInfo} {nm : String}
    (hu : u.name = some nm) (hnm : nm ≠ "") : (full_fee fee u).name = some nm := by
  unfold full_fee
  show (match u.name with
    | some s => if s = "" then fee.name else some s
    | none => fee.name) = some nm
  rw [hu]
  show (if nm = "" then fee.name else some nm) = some nm
  rw [if_neg hnm]

theorem full_fee_name_keep {fee : Fee} {u : UserInfo}
    (h : u.name = none ∨ u.name = some "") :
    (full_fee fee u).name = fee.name := by
  unfold full_fee
  show (match u.name with
    | some s => if s = "" then fee.name else some s
    | none => fee.name) = fee.name
  rcases h with h | h <;> rw [h]
  simp

/-- After the matching loop, the guarded amount stage returns some record
list carrying the loop's duplicate/unmatched marks, with names unchanged. -/
theorem supplement_finish (oracle : List CalKey → OracleResp)
    (st : SupplementState) (hne : ¬st.tempFees.isEmpty) :
    ∃ fees,
      (if st.tempFees.isEmpty then SupplementResult.ok [] [] []
        else match get_fees_batch oracle st.tempFees with
        | .error _ => .ok st.feeResult st.repeatList st.noMatchList
        | .ok calculated =>
          .ok (applyAmounts st.feeResult st.indicesMap calculated)
            st.repeatList st.noMatchList) = .ok fees st.repeatList st.noMatchList ∧
      fees.map (fun fe => fe.name) = st.feeResult.map (fun fe => fe.name) := by
  rw [if_neg hne]
  cases hgf : get_fees_batch oracle st.tempFees with
  | error e => exact ⟨st.feeResult, rfl, rfl⟩
  | ok calculated =>
    exact ⟨applyAmounts st.feeResult st.indicesMap calculated, rfl,
      applyAmountsGo_names _ _⟩

/-- C6 as stated is false: the record named "Zh S" differs from the single
directory entry "ZhS" only by whitespace, yet the run classifies it as
unmatched (position 2 in the unmatched list) and merges nothing, because
the directory query is issued with the raw (unstripped) names. -/
theorem claim_C6_cex :
    stripSpaces (feeSpaced.name.getD "") = (userZhS.name.getD "") ∧
    supplement_fee_info oracleRaise (some [userZhS]) [feeSpaced] =
      .ok [feeSpaced] [] [2] := by
  exact ⟨by decide, by decide⟩

/-- C6 (amended): the matcher looks the whitespace-stripped name up in the
grouped query result, but the `$in` query itself uses the raw names, so
(1) a record whose name contains whitespace is always unmatched under any
collection (its stripped key can never equal its own queried raw name);
(2) the stripped key can still match when another record supplies the
stripped form as its exact raw name — then both records are matched;
(3) a matched record's merged output carries the directory profile's name
when that name is non-empty; and (4) `_full_fee` keeps the record's own
name exactly when the profile's name is absent or empty. -/
theorem claim_C6_amended (oracle : List CalKey → OracleResp) :
    (∀ (coll : List UserInfo) (f : Fee) (s : String),
      f.name = some s → s ≠ "" → stripSpaces s ≠ s →
      ∃ fees, supplement_fee_info oracle (some coll) [f] = .ok fees [] [2]) ∧
    (∀ (coll : List UserInfo) (f g : Fee) (s t : String) (u : UserInfo),
      f.name = some s → g.name = some t → s ≠ "" → t ≠ "" →
      stripSpaces s = t → t ≠ s → stripSpaces t = t →
      coll.filter (fun u' => u'.name == some t) = [u] →
      ∃ fees, supplement_fee_info oracle (some coll) [f, g] = .ok fees [] []) ∧
    (∀ (coll : List UserInfo) (f : Fee) (s : String) (u : UserInfo) (nm : String),
      f.name = some s → s ≠ "" → stripSpaces s = s →
      coll.filter (fun u' => u'.name == some s) = [u] →
      u.name = some nm → nm ≠ "" →
      ∃ fees, supplement_fee_info oracle (some coll) [f] = .ok fees [] [] ∧
        fees.map (fun fe => fe.name) = [some nm]) ∧
    (∀ (fee : Fee) (u : UserInfo), u.name = none ∨ u.name = some "" →
      (full_fee fee u).name = fee.name) := by
  refine ⟨?_, ?_, ?_, fun fee u h => full_fee_name_keep h⟩
  · intro coll f s hname hs hstrip
    have hvalid : validName f = true := by simp [validName, hname, hs]
    have hval1 : (validateFees [f]).1 = [f] := by
      rw [validateFees_fst]
      simp [hvalid]
    rw [supplement_main (by simp) (by rw [hval1]; simp), hval1]
    have hnames : ([f].map (fun fe => fe.name.getD "")) = [s] := by
      simp [hname]
    have hms : matchedState coll [f] =
        supplementStep (usersDictGet coll [s]) initState f := by
      unfold matchedState
      rw [hnames]
      rfl
    have husers : usersDictGet coll [s] (stripSpaces (f.name.getD "")) = [] := by
      rw [hname, Option.getD_some]
      unfold usersDictGet
      rw [if_neg (by simpa using hstrip)]
    rw [hms, step_unmatched husers]
    obtain ⟨fees, hfin, _⟩ := supplement_finish oracle
      { initState with
        tempFees := initState.tempFees ++ [full_fee f emptyUser]
        idx := initState.idx + 1
        indicesMap := initState.indicesMap ++ [initState.feeResult.length]
        feeResult := initState.feeResult ++ [full_fee f emptyUser]
        noMatchList := initState.noMatchList ++ [initState.idx + 1] }
      (by simp [initState])
    exact ⟨fees, hfin⟩
  · intro coll f g s t u hfname hgname hs ht hst hts hstript hcoll
    have hvalf : validName f = true := by simp [validName, hfname, hs]
    have hvalg : validName g = true := by simp [validName, hgname, ht]
    have hval1 : (validateFees [f, g]).1 = [f, g] := by
      rw [validateFees_fst]
      simp [hvalf, hvalg]
    rw [supplement_main (by simp) (by rw [hval1]; simp), hval1]
    have hnames : ([f, g].map (fun fe => fe.name.getD "")) = [s, t] := by
      simp [hfname, hgname]
    have hms : matchedState coll [f, g] =
        supplementStep (usersDictGet coll [s, t])
          (supplementStep (usersDictGet coll [s, t]) initState f) g := by
      unfold matchedState
      rw [hnames]
      rfl
    have husersf : usersDictGet coll [s, t] (stripSpaces (f.name.getD "")) = [u] := by
      rw [hfname, Option.getD_some, hst]
      unfold usersDictGet
      rw [if_pos (by simp), hcoll]
    have husersg : usersDictGet coll [s, t] (stripSpaces (g.name.getD "")) = [u] := by
      rw [hgname, Option.getD_some, hstript]
      unfold usersDictGet
      rw [if_pos (by simp), hcoll]
    rw [hms, step_matched husersf, step_matched husersg]
    obtain ⟨fees, hfin, _⟩ := supplement_finish oracle
      (appendFee (appendFee initState (full_fee f u)) (full_fee g u))
      (by simp [appendFee])
    exact ⟨fees, hfin⟩
  · intro coll f s u nm hname hs hstrip hcoll hu hnm
    have hvalid : validName f = true := by simp [validName, hname, hs]
    have hval1 : (validateFees [f]).1 = [f] := by
      rw [validateFees_fst]
      simp [hvalid]
    rw [supplement_main (by simp) (by rw [hval1]; simp), hval1]
    have hnames : ([f].map (fun fe => fe.name.getD "")) = [s] := by
      simp [hname]
    have hms : matchedState coll [f] =
        supplementStep (usersDictGet coll [s]) initState f := by
      unfold matchedState
      rw [hnames]
      rfl
    have husers : usersDictGet coll [s] (stripSpaces (f.name.getD "")) = [u] := by
      rw [hname, Option.getD_some, hstrip]
      unfold usersDictGet
      rw [if_pos (by simp), hcoll]
    rw [hms, step_matched husers]
    obtain ⟨fees, hfin, hfnames⟩ := supplement_finish oracle
      (appendFee initState (full_fee f u)) (by simp [appendFee])
    refine ⟨fees, hfin, ?_⟩
    rw [hfnames]
    show [(full_fee f u).name] = [some nm]
    rw [full_fee_name_some hu hnm]

theorem claim_C6_witness :
    (∃ fees, supplement_fee_info oracleRaise (some [userZhS]) [feeSpaced] =
      .ok fees [] [2]) ∧
    (∃ fees, supplement_fee_info oracleRaise (some [userZhS])
      [feeSpaced, feeStripped] = .ok fees [] []) ∧
    (∃ fees, supplement_fee_info oracleRaise (some [userZhS]) [feeStripped] =
      .ok fees [] [] ∧ fees.map (fun fe => fe.name) = [some "ZhS"]) ∧
    (full_fee feeA userNoName).name = feeA.name := by
  have h := claim_C6_amended oracleRaise
  refine ⟨?_, ?_, ?_, h.2.2.2 feeA userNoName (Or.inl (by decide))⟩
  · exact h.1 [userZhS] feeSpaced "Zh S" (by decide) (by decide) (by decide)
  · exact h.2.1 [userZhS] feeSpaced feeStripped "Zh S" "ZhS" userZhS
      (by decide) (by decide) (by decide) (by decide) (by decide) (by decide)
      (by decide) (by decide)
  · exact h.2.2.1 [userZhS] feeStripped "ZhS" userZhS "ZhS"
      (by decide) (by decide) (by decide) (by decide) (by decide) (by decide)

/-! ## Lemmas about the highlight passes of `_write_excel_in_thread` -/

theorem applyNoMatchFills_eq (nm : List ℕ) :
    ∀ (f0 : ℕ → Fill) (x : ℕ),
      applyNoMatchFills f0 nm x =
        if x ∈ nm.map (· + 2) then Fill.yellow else f0 x := by
  induction nm with
  | nil => intro f0 x; simp [applyNoMatchFills]
  | cons i rest ih =>
    intro f0 x
    show applyNoMatchFills (Function.update f0 (i + 2) Fill.yellow) rest x = _
    rw [ih]
    by_cases hx : x ∈ rest.map (· + 2)
    · rw [if_pos hx, if_pos (by simp only [List.map_cons, List.mem_cons]; exact Or.inr hx)]
    · rw [if_neg hx]
      by_cases hxi : x = i + 2
      · rw [if_pos (by simp [hxi]), hxi, Function.update_same]
      · rw [if_neg (by simp only [List.map_cons, List.mem_cons]; tauto),
          Function.update_noteq hxi]

theorem applyGroupFills_eq (ri : List ℕ) :
    ∀ (f0 : ℕ → Fill) (x : ℕ),
      (ri.foldl (fun g i => Function.update g (i + 2) Fill.red) f0) x =
        if x ∈ ri.map (· + 2) then Fill.red else f0 x := by
  induction ri with
  | nil => intro f0 x; simp
  | cons i rest ih =>
    intro f0 x
    rw [List.foldl_cons, ih]
    by_cases hx : x ∈ rest.map (· + 2)
    · rw [if_pos hx, if_pos (by simp only [List.map_cons, List.mem_cons]; exact Or.inr hx)]
    · rw [if_neg hx]
      by_cases hxi : x = i + 2
      · rw [if_pos (by simp [hxi]), hxi, Function.update_same]
      · rw [if_neg (by simp only [List.map_cons, List.mem_cons]; tauto),
          Function.update_noteq hxi]

theorem applyRepeatFills_eq (reps : List (List ℕ)) :
    ∀ (f0 : ℕ → Fill) (x : ℕ),
      applyRepeatFills f0 reps x =
        if x ∈ reps.flatten.map (· + 2) then Fill.red else f0 x := by
  induction reps with
  | nil => intro f0 x; simp [applyRepeatFills]
  | cons ri rest ih =>
    intro f0 x
    show applyRepeatFills
      (ri.foldl (fun g i => Function.update g (i + 2) Fill.red) f0) rest x = _
    rw [ih, List.flatten_cons, List.map_append]
    by_cases hx : x ∈ rest.flatten.map (· + 2)
    · rw [if_pos hx, if_pos (List.mem_append.mpr (Or.inr hx))]
    · rw [if_neg hx, applyGroupFills_eq]
      by_cases hxi : x ∈ ri.map (· + 2)
      · rw [if_pos hxi, if_pos (List.mem_append.mpr (Or.inl hxi))]
      · rw [if_neg hxi, if_neg (by rw [List.mem_append]; tauto)]

/-- C5 as stated is false: for output position 0 listed both in a duplicate
group and in the unmatched list, the written row (worksheet row 2) carries
the unmatched (yellow) highlight, not the duplicate (red) one. -/
theorem claim_C5_cex :
    writeFills [[0]] [0] 2 = Fill.yellow ∧ Fill.yellow ≠ Fill.red := by
  exact ⟨by decide, by decide⟩

/-- C5 (amended): each worksheet row carries exactly one final fill, with
the unmatched class taking precedence: yellow if the row belongs to an
unmatched position, else red if it belongs to any duplicate group, else no
highlight — because the yellow pass runs after the red pass and overwrites
it cell by cell. -/
theorem claim_C5_amended (reps : List (List ℕ)) (nm : List ℕ) (row : ℕ) :
    writeFills reps nm row =
      if row ∈ nm.map (· + 2) then Fill.yellow
      else if row ∈ reps.flatten.map (· + 2) then Fill.red
      else Fill.default := by
  unfold writeFills
  rw [applyNoMatchFills_eq]
  by_cases h : row ∈ nm.map (· + 2)
  · rw [if_pos h, if_pos h]
  · rw [if_neg h, if_neg h, applyRepeatFills_eq]

end ExamData
